import Mathlib

/-!
Verification of the LHDiff line-alignment and bug-lineage tracer.

The definitions below are a shallow embedding of the Python sources:
* `src/diff/diff.py` (`get_diff`, `reconstruct_from_trace`): Myers O(ND)
  shortest-edit-script aligner over line lists;
* `src/diff/matcher.py` (`levenshtein`, `normalized_levenshtein`,
  `get_context`, `cosine_similarity`, `combined_similarity`, `match_lines`);
* `src/diff/diff_hybrid.py` (`get_diff_hybrid`);
* `src/bug_signature.py` (`extract_bug_signature`);
* `src/bug_tracking/line_tracker.py` (`find_bug_in_version`,
  `find_bug_introduction`);
* `src/bug_tracking/bug_backtracker.py` (`trace_single_bug`).

Modelling conventions: Python `str` is modelled as its character sequence
`List Char` (so that every text operation is structurally recursive and
kernel-evaluable); Python `float` arithmetic as exact real/rational
arithmetic; Python `dict`/`set` as association/member lists (only lookups
and membership tests are performed on them, so representation order is
irrelevant); bounded `while` loops as fuel recursion with fuel provably
larger than the iteration count.
-/

namespace LHDiff

/-- Python strings, modelled as character lists. -/
abbrev Str := List Char

/-- The character sequence of a string literal. -/
def chars (s : String) : Str := s.data

/-- Decimal digits of a natural number, most significant first, prepended
to `acc` (fuel-based; `n + 1` units of fuel always suffice). -/
def natCharsAux : Nat → Nat → Str → Str
  | 0, _, acc => acc
  | fuel + 1, n, acc =>
    let d := Char.ofNat (48 + n % 10)
    if n < 10 then d :: acc else natCharsAux fuel (n / 10) (d :: acc)

/-- Python `str(n)` for a natural number. -/
def natChars (n : Nat) : Str := natCharsAux (n + 1) n []

/-- Python `str(i)` for an integer. -/
def intChars (i : Int) : Str :=
  if i < 0 then '-' :: natChars ((-i).toNat) else natChars i.toNat

/-- Python `int(s)` on the canonical decimal strings occurring in diff
tokens. -/
def pyInt (s : Str) : Int :=
  let digits : Str → Nat := fun ds => ds.foldl (fun acc c => acc * 10 + (c.toNat - 48)) 0
  match s with
  | '-' :: rest => -(digits rest : Int)
  | _ => (digits s : Int)

/-- Python `str.strip()` (also the model of `str.trim`-like uses). -/
def pyStrip (s : Str) : Str :=
  ((s.dropWhile Char.isWhitespace).reverse.dropWhile Char.isWhitespace).reverse

/-- Helper for `pySplit`: split at every whitespace character. -/
def pySplitAux : Str → Str → List Str
  | [], cur => [cur.reverse]
  | c :: rest, cur =>
    if c.isWhitespace then cur.reverse :: pySplitAux rest []
    else pySplitAux rest (c :: cur)

/-- Python `str.split()`: whitespace tokenization, discarding empty pieces. -/
def pySplit (s : Str) : List Str := (pySplitAux s []).filter (fun w => w ≠ [])

/-- Python list indexing `l[i]` (negative indices wrap; out of range is
`none`, which in Python would raise `IndexError` — unreachable in the code
paths modelled here). -/
def pyGet {α : Type} (l : List α) (i : Int) : Option α :=
  if 0 ≤ i then l.get? i.toNat
  else if 0 ≤ i + l.length then l.get? (i + l.length).toNat
  else none

/-- Python `dict.get(k, dflt)` over an association-list model of an
`int -> int` dictionary. -/
def dGet (f : List (Int × Int)) (k : Int) (dflt : Int) : Int :=
  match f.find? (fun p => p.1 == k) with
  | some p => p.2
  | none => dflt

/-! ### `src/diff/diff.py` — the exact Myers aligner -/

variable {α : Type} [DecidableEq α]

/-- The greedy "snake" of `get_diff`: `while x < len(old) and y < len(new)
and old[x] == new[y]: x += 1; y += 1`.  Fuel bounds the iteration count;
`len(old) + len(new) + 1` always suffices. -/
def snakeFwd (a b : List α) : Nat → Int → Int → Int × Int
  | 0, x, y => (x, y)
  | fuel + 1, x, y =>
    if x < (a.length : Int) ∧ y < (b.length : Int) ∧ pyGet a x = pyGet b y then
      snakeFwd a b fuel (x + 1) (y + 1)
    else (x, y)

/-- The diagonals visited in round `D`: `range(-ops, ops+1, 2)`. -/
def kList (D : Nat) : List Int :=
  (List.range (D + 1)).map (fun (i : Nat) => -(D : Int) + 2 * (i : Int))

/-- One round of the outer loop of `get_diff`, iterating over `kList D`
with the previous round's `frontier` and accumulating the dictionary `V`.
`Sum.inr V` models the early `return` when some diagonal reaches
`x >= len(old) and y >= len(new)`; `Sum.inl V` models falling through to
the next round. -/
def roundGo (a b : List α) (frontier : List (Int × Int)) (D : Nat) :
    List Int → List (Int × Int) → (List (Int × Int)) ⊕ (List (Int × Int))
  | [], V => .inl V
  | k :: ks, V =>
    let x0 : Int :=
      if k = -(D : Int) ∨ (k ≠ (D : Int) ∧ dGet frontier (k - 1) (-1) < dGet frontier (k + 1) 0)
      then dGet frontier (k + 1) 0
      else dGet frontier (k - 1) 0 + 1
    let y0 : Int := x0 - k
    if y0 < 0 then roundGo a b frontier D ks V
    else
      let p := snakeFwd a b (a.length + b.length + 1) x0 y0
      let V' := (k, p.1) :: V
      if (a.length : Int) ≤ p.1 ∧ (b.length : Int) ≤ p.2 then .inr V'
      else roundGo a b frontier D ks V'

/-- The outer `for ops in range(max_diffs+1)` loop of `get_diff`.  The round
index is `trace.length` (the trace grows by one entry per round).  `none`
models Python's implicit `return None` when the loop is exhausted. -/
def myersAux (a b : List α) : Nat → List (Int × Int) → List (List (Int × Int)) →
    Option (List (List (Int × Int)))
  | 0, _, _ => none
  | fuel + 1, frontier, trace =>
    match roundGo a b frontier trace.length (kList trace.length) [] with
    | .inr V => some (trace ++ [V])
    | .inl V => myersAux a b fuel V (trace ++ [V])

/-- The search phase of `get_diff`: starts from `frontier = {1: 0}` and an
empty trace, with fuel `max_diffs + 1 = len(old) + len(new) + 1` rounds. -/
def myersTrace (a b : List α) : Option (List (List (Int × Int))) :=
  myersAux a b (a.length + b.length + 1) [(1, 0)] []

/-- Diff token `f"{x}:{y}"` (exact match). -/
def mkMatch (i j : Int) : Str := intChars i ++ ':' :: intChars j

/-- Diff token `f"{x}~{y}"` (similarity match). -/
def mkSim (i j : Int) : Str := intChars i ++ '~' :: intChars j

/-- Diff token `f"{y}+"` (insertion). -/
def mkIns (i : Int) : Str := intChars i ++ ['+']

/-- Diff token `f"{x}-"` (deletion). -/
def mkDel (i : Int) : Str := intChars i ++ ['-']

/-- The backward snake of `reconstruct_from_trace`: `while x > x_prev and
y > y_prev: edits.append(f"{x-1}:{y-1}"); x -= 1; y -= 1`.  The Python
`edits` list is kept reversed (tokens are prepended), so the final
`edits.reverse()` becomes the identity.  Fuel `(x - xp).toNat` is exact. -/
def snakeBack (xp yp : Int) : Nat → Int → Int → List Str → Int × Int × List Str
  | 0, x, y, acc => (x, y, acc)
  | fuel + 1, x, y, acc =>
    if xp < x ∧ yp < y then
      snakeBack xp yp fuel (x - 1) (y - 1) (mkMatch (x - 1) (y - 1) :: acc)
    else (x, y, acc)

/-- The `for D in reversed(range(len(trace)))` loop of
`reconstruct_from_trace`, with `D` the Python loop variable.  For `D = 0`
only the terminal snake to the origin runs; for `D ≥ 1` the predecessor
diagonal is recomputed from `V = trace[D-1]` with the same tie-break as the
forward pass (but with default `-1` for both neighbours), the snake is
walked backwards, and one insertion or deletion token is emitted. -/
def reconstructAux (trace : List (List (Int × Int))) :
    Nat → Int → Int → List Str → List Str
  | 0, x, y, acc => (snakeBack 0 0 x.toNat x y acc).2.2
  | D + 1, x, y, acc =>
    let V := trace.getD D []
    let k := x - y
    if k = -((D : Int) + 1) ∨ (k ≠ ((D : Int) + 1) ∧ dGet V (k - 1) (-1) < dGet V (k + 1) (-1))
    then
      let xp := dGet V (k + 1) 0
      let yp := xp - (k + 1)
      let q := snakeBack xp yp (x - xp).toNat x y acc
      reconstructAux trace D q.1 (q.2.1 - 1) (mkIns (q.2.1 - 1) :: q.2.2)
    else
      let xp := dGet V (k - 1) 0
      let yp := xp - (k - 1)
      let q := snakeBack xp yp (x - xp).toNat x y acc
      reconstructAux trace D (q.1 - 1) q.2.1 (mkDel (q.1 - 1) :: q.2.2)

/-- `reconstruct_from_trace(old_file_text, new_file_text, trace)`. -/
def reconstruct_from_trace (a b : List α) (trace : List (List (Int × Int))) : List Str :=
  reconstructAux trace (trace.length - 1) (a.length : Int) (b.length : Int) []

/-- `get_diff(old_file_text, new_file_text)` from `src/diff/diff.py`. -/
def get_diff (a b : List α) : Option (List Str) :=
  (myersTrace a b).map (reconstruct_from_trace a b)

/-! ### Reference insert/delete edit distance (dynamic program)

`dpDist a b x y` is the minimum number of line insertions and deletions
transforming the first `x` lines of `a` into the first `y` lines of `b`,
computed by the textbook prefix dynamic program (no substitutions). -/

def dpDist (a b : List α) : Nat → Nat → Nat
  | 0, 0 => 0
  | x + 1, 0 => x + 1
  | 0, y + 1 => y + 1
  | x + 1, y + 1 =>
    if a.get? x = b.get? y then dpDist a b x y
    else 1 + min (dpDist a b (x + 1) y) (dpDist a b x (y + 1))
  termination_by x y => x + y

/-- The insert/delete edit distance between `a` and `b`. -/
def editDist (a b : List α) : Nat := dpDist a b a.length b.length

/-- Option-valued lookup in the association-list model of `V`/`frontier`. -/
def vLookup (f : List (Int × Int)) (k : Int) : Option Int :=
  (f.find? (fun p => p.1 == k)).map Prod.snd

/-- Grid positions reachable from the origin with `d` insertions/deletions:
free diagonal steps on equal lines, cost-1 right (delete) and down (insert)
steps anywhere (the Myers edit graph, with positions beyond the grid
admitted as the implementation's frontier may claim them). -/
inductive Reach (a b : List α) : Nat → Int → Int → Prop where
  | start : Reach a b 0 0 0
  | diag {d : Nat} {x y : Int} : Reach a b d x y → 0 ≤ x → x < (a.length : Int) →
      0 ≤ y → y < (b.length : Int) → a.get? x.toNat = b.get? y.toNat →
      Reach a b d (x + 1) (y + 1)
  | del {d : Nat} {x y : Int} : Reach a b d x y → Reach a b (d + 1) (x + 1) y
  | ins {d : Nat} {x y : Int} : Reach a b d x y → Reach a b (d + 1) x (y + 1)

/-- Every value stored in `V` (or read from the frontier) is nonnegative. -/
def NonnegV (V : List (Int × Int)) : Prop := ∀ p ∈ V, 0 ≤ p.2

/-- Soundness of a round's dictionary: every recorded `(k, x)` is a
position on diagonal `k` reachable with at most `D` edits. -/
def SoundV (a b : List α) (D : Nat) (V : List (Int × Int)) : Prop :=
  ∀ p ∈ V, ∃ d ≤ D, Reach a b d p.2 (p.2 - p.1)

/-- Soundness of frontier reads: a stored value is `0` (harmless, as for
the initial `{1: 0}`) or a reachable position. -/
def FrontSound (a b : List α) (D : Nat) (f : List (Int × Int)) : Prop :=
  ∀ j v, vLookup f j = some v → 0 ≤ v ∧ (v = 0 ∨ ∃ d ≤ D, Reach a b d v (v - j))

/-- No recorded entry satisfies the termination test (otherwise the round
would have returned). -/
def NoTermV (a b : List α) (V : List (Int × Int)) : Prop :=
  ∀ p ∈ V, ¬((a.length : Int) ≤ p.2 ∧ (b.length : Int) ≤ p.2 - p.1)

/-- Domination: every in-grid position whose prefix edit distance is at
most `D` (with the round's parity) is covered by the dictionary entry of
its diagonal. -/
def DomV (a b : List α) (D : Nat) (V : List (Int × Int)) : Prop :=
  ∀ x y : Nat, x ≤ a.length → y ≤ b.length → dpDist a b x y ≤ D →
    (x + y + D) % 2 = 0 →
    ∃ v, vLookup V ((x : Int) - (y : Int)) = some v ∧ (x : Int) ≤ v

/-- Per-diagonal domination after a round has processed diagonal `k`:
every in-grid position of diagonal `k` within distance `D` (and matching
parity) is dominated by the dictionary entry of `k`. -/
def GoodK (a b : List α) (D : Nat) (V : List (Int × Int)) (k : Int) : Prop :=
  ∀ x y : Nat, x ≤ a.length → y ≤ b.length → (x : Int) - y = k →
    dpDist a b x y ≤ D → (x + y + D) % 2 = 0 →
    ∃ v, vLookup V k = some v ∧ (x : Int) ≤ v

/-- A token is a deletion or insertion token iff its last character is `-`
or `+` (exact-match tokens `x:y` end in a digit). -/
def isEditTok (s : Str) : Bool :=
  s.getLast? = some '-' ∨ s.getLast? = some '+'

/-- Number of deletion plus insertion tokens in a diff. -/
def editTokCount (d : List Str) : Nat := (d.filter isEditTok).length

/-! ### `difflib.SequenceMatcher` (CPython stdlib, `isjunk=None`,
`autojunk=False`), as used by `match_lines` in `src/diff/matcher.py`.

With no junk the `b2j` map simply lists, for each line of `b`, its
positions in ascending order, and the junk-extension loops of
`find_longest_match` never run. -/

/-- `b2j[line]`: ascending positions of `line` in `b`. -/
def b2j (b : List Str) (line : Str) : List Nat :=
  (List.range b.length).filter (fun j => b.get? j == some line)

/-- `j2len.get(j-1, 0)` for `j ≥ 0` (at `j = 0` the key `-1` is absent). -/
def j2lenPrev (m : List (Nat × Nat)) : Nat → Nat
  | 0 => 0
  | j + 1 => match m.find? (fun p => p.1 == j) with
    | some p => p.2
    | none => 0

/-- Inner loop of `find_longest_match`: for one row `i`, extend runs ending
at each eligible `j` and track the best `(besti, bestj, bestsize)` (strict
improvement only, so the earliest maximal run wins). -/
def flmRow (i : Nat) : List Nat → List (Nat × Nat) → List (Nat × Nat) →
    Nat × Nat × Nat → (List (Nat × Nat)) × (Nat × Nat × Nat)
  | [], _, newj2len, best => (newj2len, best)
  | j :: js, j2len, newj2len, best =>
    let k := j2lenPrev j2len j + 1
    let best' := if best.2.2 < k then (i + 1 - k, j + 1 - k, k) else best
    flmRow i js j2len ((j, k) :: newj2len) best'

/-- Row iteration of `find_longest_match` over `i ∈ [alo, ahi)`. -/
def flmRows (a b : List Str) (blo bhi : Nat) :
    List Nat → List (Nat × Nat) → Nat × Nat × Nat → Nat × Nat × Nat
  | [], _, best => best
  | i :: is', j2len, best =>
    let js := (b2j b (a.getD i [])).filter (fun j => blo ≤ j ∧ j < bhi)
    let r := flmRow i js j2len [] best
    flmRows a b blo bhi is' r.1 r.2

/-- Backward non-junk extension loop of `find_longest_match`. -/
def flmExtBack (a b : List Str) (alo blo : Nat) :
    Nat → Nat × Nat × Nat → Nat × Nat × Nat
  | 0, best => best
  | fuel + 1, (bi, bj, bk) =>
    if alo < bi ∧ blo < bj ∧ a.get? (bi - 1) = b.get? (bj - 1) then
      flmExtBack a b alo blo fuel (bi - 1, bj - 1, bk + 1)
    else (bi, bj, bk)

/-- Forward non-junk extension loop of `find_longest_match`. -/
def flmExtFwd (a b : List Str) (ahi bhi : Nat) :
    Nat → Nat × Nat × Nat → Nat × Nat × Nat
  | 0, best => best
  | fuel + 1, (bi, bj, bk) =>
    if bi + bk < ahi ∧ bj + bk < bhi ∧ a.get? (bi + bk) = b.get? (bj + bk) then
      flmExtFwd a b ahi bhi fuel (bi, bj, bk + 1)
    else (bi, bj, bk)

/-- `SequenceMatcher.find_longest_match(alo, ahi, blo, bhi)`. -/
def find_longest_match (a b : List Str) (alo ahi blo bhi : Nat) : Nat × Nat × Nat :=
  let best := flmRows a b blo bhi (List.range' alo (ahi - alo)) [] (alo, blo, 0)
  let best := flmExtBack a b alo blo (a.length + 1) best
  flmExtFwd a b ahi bhi (b.length + 1) best

/-- Recursive formulation of `get_matching_blocks`'s divide-and-conquer
(the stdlib's explicit work queue visits exactly the same sub-ranges and
then sorts; recursion yields them already sorted). -/
def matchingBlocksRec (a b : List Str) : Nat → Nat → Nat → Nat → Nat →
    List (Nat × Nat × Nat)
  | 0, _, _, _, _ => []
  | fuel + 1, alo, ahi, blo, bhi =>
    let r := find_longest_match a b alo ahi blo bhi
    if r.2.2 = 0 then []
    else
      matchingBlocksRec a b fuel alo r.1 blo r.2.1 ++ [r] ++
        matchingBlocksRec a b fuel (r.1 + r.2.2) ahi (r.2.1 + r.2.2) bhi

/-- Adjacent-block merging loop of `get_matching_blocks`, ending with the
sentinel `(la, lb, 0)`. -/
def mergeBlocks (la lb : Nat) : Nat × Nat × Nat → List (Nat × Nat × Nat) →
    List (Nat × Nat × Nat)
  | (i1, j1, k1), [] => (if k1 ≠ 0 then [(i1, j1, k1)] else []) ++ [(la, lb, 0)]
  | (i1, j1, k1), (i2, j2, k2) :: rest =>
    if i1 + k1 = i2 ∧ j1 + k1 = j2 then mergeBlocks la lb (i1, j1, k1 + k2) rest
    else (if k1 ≠ 0 then [(i1, j1, k1)] else []) ++ mergeBlocks la lb (i2, j2, k2) rest

/-- `SequenceMatcher.get_matching_blocks()`. -/
def get_matching_blocks (a b : List Str) : List (Nat × Nat × Nat) :=
  mergeBlocks a.length b.length (0, 0, 0)
    (matchingBlocksRec a b (a.length + b.length + 1) 0 a.length 0 b.length)

/-- `SequenceMatcher.get_opcodes()`: tags are `replace`, `delete`,
`insert`, `equal` over `(i1, i2, j1, j2)` ranges. -/
def opcodesGo : Nat → Nat → List (Nat × Nat × Nat) →
    List (String × Nat × Nat × Nat × Nat)
  | _, _, [] => []
  | i, j, (ai, bj, size) :: rest =>
    let tag : String :=
      if i < ai ∧ j < bj then "replace"
      else if i < ai then "delete"
      else if j < bj then "insert"
      else ""
    (if tag ≠ "" then [(tag, i, ai, j, bj)] else []) ++
      (if size ≠ 0 then [("equal", ai, ai + size, bj, bj + size)] else []) ++
      opcodesGo (ai + size) (bj + size) rest

/-- `SequenceMatcher.get_opcodes()` on full sequences. -/
def get_opcodes (a b : List Str) : List (String × Nat × Nat × Nat × Nat) :=
  opcodesGo 0 0 (get_matching_blocks a b)

/-! ### `src/diff/matcher.py` — similarity scoring and block matching -/

/-- The classic Levenshtein recursion (substitution, insertion and deletion
all cost 1); the same function the 2-D table of `levenshtein` computes.
Fuel-based so that it is structurally recursive;
`a.length + b.length + 1` units always suffice. -/
def levRecF : Nat → Str → Str → Nat
  | 0, _, _ => 0
  | _ + 1, [], bs => bs.length
  | _ + 1, _ :: as', [] => as'.length + 1
  | fuel + 1, a :: as', b :: bs =>
    if a = b then levRecF fuel as' bs
    else 1 + min (levRecF fuel as' (b :: bs)) (min (levRecF fuel (a :: as') bs) (levRecF fuel as' bs))

/-- The Levenshtein recursion with sufficient fuel. -/
def levRec (a b : Str) : Nat := levRecF (a.length + b.length + 1) a b

/-- `levenshtein(a, b)` from `src/diff/matcher.py` (with its `a == b` and
empty-string early returns). -/
def levenshtein (a b : Str) : Nat :=
  if a = b then 0
  else if a.length = 0 then b.length
  else if b.length = 0 then a.length
  else levRec a b

/-- `normalized_levenshtein(a, b)`: similarity in `[0,1]` based on the
Levenshtein distance; `1.0` when both strings are empty. -/
def normalized_levenshtein (a b : Str) : ℚ :=
  if a = [] ∧ b = [] then 1
  else 1 - (levenshtein a b : ℚ) / (max a.length b.length : ℚ)

/-- `get_context(lines, idx, window)`: the space-joined slice
`lines[max(0, idx-window) : min(len(lines), idx+window+1)]`. -/
def get_context (lines : List Str) (idx : Nat) (window : Nat) : Str :=
  List.intercalate [' '] ((lines.take (min lines.length (idx + window + 1))).drop (idx - window))

/-- `cosine_similarity(text1, text2)` from `src/diff/matcher.py`: bag-of-words
cosine; `1.0` when both strings are blank, `0.0` when exactly one is. -/
noncomputable def cosine_similarity (text1 text2 : Str) : ℝ :=
  if pyStrip text1 = [] ∧ pyStrip text2 = [] then 1
  else if pyStrip text1 = [] ∨ pyStrip text2 = [] then 0
  else
    let words1 := pySplit text1
    let words2 := pySplit text2
    let common := words1.toFinset ∩ words2.toFinset
    let dot : Nat := ∑ w ∈ common, words1.count w * words2.count w
    let norm1 : ℝ := Real.sqrt (∑ w ∈ words1.toFinset, ((words1.count w : ℝ)) ^ 2)
    let norm2 : ℝ := Real.sqrt (∑ w ∈ words2.toFinset, ((words2.count w : ℝ)) ^ 2)
    if norm1 = 0 ∨ norm2 = 0 then 0 else (dot : ℝ) / (norm1 * norm2)

/-- `combined_similarity(line_a, line_b, ctx_a, ctx_b, alpha)`. -/
noncomputable def combined_similarity (lineA lineB ctxA ctxB : Str) (alpha : ℝ) : ℝ :=
  alpha * (normalized_levenshtein lineA lineB : ℝ) + (1 - alpha) * cosine_similarity ctxA ctxB

/-- First pass of `match_lines`: equal opcode blocks become anchor
mappings, the other blocks are queued for the similarity pass.  Returns
`(mapping, used_new, unmatched_blocks)`. -/
def matchPass1 (opcodes : List (String × Nat × Nat × Nat × Nat)) :
    (List (Nat × Nat)) × (List Nat) × List ((Nat × Nat) × Nat × Nat) :=
  opcodes.foldl
    (fun st op =>
      if op.1 = "equal" then
        let pairs := (List.range (op.2.2.1 - op.2.1)).map (fun off => (op.2.1 + off, op.2.2.2.1 + off))
        (st.1 ++ pairs, st.2.1 ++ pairs.map Prod.snd, st.2.2)
      else
        (st.1, st.2.1, st.2.2 ++ [((op.2.1, op.2.2.1), op.2.2.2.1, op.2.2.2.2)]))
    ([], [], [])

/-- Inner candidate scan of `match_lines`'s similarity pass: over the new
indices of one block, skipping used ones, keep the strictly best score. -/
noncomputable def bestCandidate (old_lines new_lines : List Str) (cw : Nat)
    (used : List Nat) (old_idx : Nat) :
    List Nat → (Option Nat) × ℝ → (Option Nat) × ℝ
  | [], best => best
  | new_idx :: rest, best =>
    if new_idx ∈ used then bestCandidate old_lines new_lines cw used old_idx rest best
    else
      let score := combined_similarity (old_lines.getD old_idx []) (new_lines.getD new_idx [])
        (get_context old_lines old_idx cw) (get_context new_lines new_idx cw) (3 / 5)
      if best.2 < score then bestCandidate old_lines new_lines cw used old_idx rest (some new_idx, score)
      else bestCandidate old_lines new_lines cw used old_idx rest best

/-- Similarity pass of `match_lines` over one non-equal block. -/
noncomputable def matchPass2Block (old_lines new_lines : List Str) (cw : Nat) (threshold : ℝ)
    (st : (List (Nat × Nat)) × List Nat) (blk : (Nat × Nat) × Nat × Nat) :
    (List (Nat × Nat)) × List Nat :=
  (List.range' blk.1.1 (blk.1.2 - blk.1.1)).foldl
    (fun st old_idx =>
      if (st.1.find? (fun p => p.1 == old_idx)).isSome then st
      else
        let best := bestCandidate old_lines new_lines cw st.2 old_idx
          (List.range' blk.2.1 (blk.2.2 - blk.2.1)) (none, 0)
        match best.1 with
        | some bn => if threshold ≤ best.2 then ((old_idx, bn) :: st.1, bn :: st.2) else st
        | none => st)
    st

/-- Ascending insertion into a sorted list (Python `sorted` on the distinct
dictionary keys). -/
def insertAsc (x : Nat) : List Nat → List Nat
  | [] => [x]
  | y :: ys => if x ≤ y then x :: y :: ys else y :: insertAsc x ys

/-- Python `sorted` on a list of distinct naturals. -/
def pySorted (l : List Nat) : List Nat := l.foldr insertAsc []

/-- `match_lines(old_lines, new_lines, context_window, similarity_threshold)`
from `src/diff/matcher.py`: difflib equal-block anchors, then greedy
similarity pairing, returned as ascending 1-based `(old, new)` pairs. -/
noncomputable def match_lines (old_lines new_lines : List Str) (cw : Nat) (threshold : ℝ) :
    List (Nat × Nat) :=
  let p1 := matchPass1 (get_opcodes old_lines new_lines)
  let st := p1.2.2.foldl (matchPass2Block old_lines new_lines cw threshold) (p1.1, p1.2.1)
  (pySorted (st.1.map Prod.fst)).map
    (fun k => (k + 1, (match st.1.find? (fun p => p.1 == k) with
                       | some p => p.2
                       | none => 0) + 1))

/-! ### `src/diff/diff_hybrid.py` — the hybrid diff engine -/

/-- `line[0] if isinstance(line, list) and len(line) > 0 else str(line)`
for the `List[List[str]]` line representation (`str([])` is `"[]"`). -/
def lineStr : List Str → Str
  | x :: _ => x
  | [] => chars "[]"

/-- Token-parsing loop of `get_diff_hybrid`: collects
`(exact_matches, old_matched, new_matched)` from the exact diff, treating
its indices as 1-based and converting to 0-based (the `-`/`+` branches of
the Python loop only set unused local variables).  -/
def hybridParse (exact_diff : List Str) : (List (Int × Int)) × (List Int) × List Int :=
  exact_diff.foldl
    (fun st op =>
      if op.contains ':' then
        match op.splitOn ':' with
        | [o, n] =>
          let oi := pyInt o - 1
          let ni := pyInt n - 1
          ((oi, ni) :: st.1, oi :: st.2.1, ni :: st.2.2)
        | _ => st
      else st)
    ([], [], [])

/-- The unmatched indices `[i for i in range(len(lines)) if i not in matched]`. -/
def hybridUnmatched (lines_len : Nat) (matched : List Int) : List Nat :=
  (List.range lines_len).filter (fun (i : Nat) => ¬ (i : Int) ∈ matched)

/-- Step 2 of `get_diff_hybrid`: the `similarity_matches` dictionary
(0-based `old -> new`, last write first) produced by running `match_lines`
on the unmatched leftovers and translating its 1-based relative indices
back through `unmatched_old_indices`/`unmatched_new_indices`. -/
noncomputable def hybridSim (old_lines new_lines : List Str) (threshold : ℝ)
    (use_similarity : Bool) (uo un : List Nat) : List (Int × Int) :=
  if use_similarity ∧ uo ≠ [] ∧ un ≠ [] then
    (match_lines (uo.map (fun i => old_lines.getD i []))
        (un.map (fun i => new_lines.getD i [])) 4 threshold).foldl
      (fun sm r =>
        if r.1 ≤ uo.length ∧ r.2 ≤ un.length then
          ((uo.getD (r.1 - 1) 0 : Int), (un.getD (r.2 - 1) 0 : Int)) :: sm
        else sm)
      []
  else []

/-- Step 3 of `get_diff_hybrid`: the ordered 1-based token stream — for
each old index an exact match, else a similarity match, else (if unmatched)
a deletion; then insertions for the unmatched new indices. -/
def hybridBuild (old_len new_len : Nat) (exact_matches sim : List (Int × Int))
    (old_matched new_matched : List Int) : List Str :=
  ((List.range old_len).map (fun old_idx =>
      match exact_matches.find? (fun p => p.1 == (old_idx : Int)) with
      | some p => [mkMatch (old_idx + 1) (p.2 + 1)]
      | none =>
        match sim.find? (fun p => p.1 == (old_idx : Int)) with
        | some p => [mkSim (old_idx + 1) (p.2 + 1)]
        | none =>
          if (old_idx : Int) ∈ old_matched then [] else [mkDel (old_idx + 1)])).flatten ++
    ((List.range new_len).filterMap (fun new_idx =>
      if (new_idx : Int) ∈ new_matched then none else some (mkIns (new_idx + 1))))

/-- Steps 2 and 3 of `get_diff_hybrid` applied to a parsed exact diff:
similarity matching of the unmatched leftovers, then the ordered 1-based
token stream (matched sets grow with the accepted similarity pairs). -/
noncomputable def hybridAssemble (old_lines new_lines : List Str) (threshold : ℝ)
    (use_similarity : Bool) (parsed : (List (Int × Int)) × (List Int) × List Int) :
    List Str :=
  let sim := hybridSim old_lines new_lines threshold use_similarity
    (hybridUnmatched old_lines.length parsed.2.1) (hybridUnmatched new_lines.length parsed.2.2)
  hybridBuild old_lines.length new_lines.length parsed.1 sim
    (parsed.2.1 ++ sim.map Prod.fst) (parsed.2.2 ++ sim.map Prod.snd)

/-- `get_diff_hybrid(old_file_text, new_file_text, similarity_threshold,
use_similarity)` from `src/diff/diff_hybrid.py` (`none` only if the exact
aligner itself falls through, which never happens). -/
noncomputable def get_diff_hybrid (old_file_text new_file_text : List (List Str))
    (threshold : ℝ) (use_similarity : Bool) : Option (List Str) :=
  (get_diff old_file_text new_file_text).map (fun exact_diff =>
    hybridAssemble (old_file_text.map lineStr) (new_file_text.map lineStr)
      threshold use_similarity (hybridParse exact_diff))

/-! ### Token grammar (wire format, §6 of the spec)

`tokOldIdx`/`tokNewIdx` read the old/new line index out of a diff token:
exact matches `x:y` and similarity matches `x~y` carry both, deletions `x-`
only an old index, insertions `y+` only a new index. -/

/-- The old-side index carried by a diff token, if any. -/
def tokOldIdx (s : Str) : Option Int :=
  if s.contains ':' then some (pyInt ((s.splitOn ':').getD 0 []))
  else if s.contains '~' then some (pyInt ((s.splitOn '~').getD 0 []))
  else if s.getLast? = some '-' then some (pyInt s.dropLast)
  else none

/-- The new-side index carried by a diff token, if any. -/
def tokNewIdx (s : Str) : Option Int :=
  if s.contains ':' then some (pyInt ((s.splitOn ':').getD 1 []))
  else if s.contains '~' then some (pyInt ((s.splitOn '~').getD 1 []))
  else if s.getLast? = some '+' then some (pyInt s.dropLast)
  else none

/-! ### `src/models.py` — data model -/

/-- `FileVersion` (the `file_path` field is irrelevant to the logic). -/
structure FileVersion where
  version : Int
  file_path : Str
  lines : List Str
  preprocessed : List Str
deriving DecidableEq

/-- `BugSignature` (field `fix_operations` holds the source hybrid diff). -/
structure BugSignature where
  buggy_lines : List Str
  buggy_lines_normalized : List Str
  line_numbers : List Int
  context_before : List Str
  context_after : List Str
  fix_type : String
  fix_operations : List Str
deriving DecidableEq

/-- `BugSignature.is_empty()`: no buggy lines. -/
def BugSignature.is_empty (s : BugSignature) : Bool := s.buggy_lines.length == 0

/-- `BugMatch`. -/
structure BugMatch where
  version : Int
  line_numbers : List Int
  matched_lines : List Str
  confidence : ℝ

/-- `CommitInfo`. -/
structure CommitInfo where
  version : Int
  message : Str
  file_name : Str
  is_bug_fix : Bool

/-- `BugLineage` (the always-`None` `line_history` field is omitted). -/
structure BugLineage where
  fix_commit : CommitInfo
  fix_version : Int
  signature : BugSignature
  introduction_commit : Option CommitInfo
  introduction_version : Int
  introduction_lines : List Int
  versions_with_bug : List BugMatch
  confidence : ℝ
  commits_between : Int
  trace_complete : Bool
  error_message : Option String

/-! ### `src/bug_signature.py` — signature extraction -/

/-- Python `range(lo, hi)` over integers. -/
def intRange (lo hi : Int) : List Int :=
  (List.range (hi - lo).toNat).map (fun i => lo + (i : Int))

/-- Python `min` of a nonempty integer list (0 on the unreachable empty case). -/
def minInt : List Int → Int
  | [] => 0
  | x :: xs => xs.foldl min x

/-- Python `max` of a nonempty integer list (0 on the unreachable empty case). -/
def maxInt : List Int → Int
  | [] => 0
  | x :: xs => xs.foldl max x

/-- The diff-op scan of `extract_bug_signature`: collects
`buggy_line_numbers` (in op order) and counts deletions, modifications and
insertions.  A `x-` op contributes its index; a `x~y` op contributes its
old index; `x:y` and `y+` contribute no buggy line. -/
def sigScan (diff_ops : List Str) : (List Int) × Nat × Nat × Nat :=
  diff_ops.foldl
    (fun st op =>
      if op.getLast? = some '-' then
        (st.1 ++ [pyInt op.dropLast], st.2.1 + 1, st.2.2.1, st.2.2.2)
      else if op.contains '~' then
        match op.splitOn '~' with
        | [o, _] => (st.1 ++ [pyInt o], st.2.1, st.2.2.1 + 1, st.2.2.2)
        | _ => st
      else if op.getLast? = some '+' then
        (st.1, st.2.1, st.2.2.1, st.2.2.2 + 1)
      else st)
    ([], 0, 0, 0)

/-- The `fix_type` classification of `extract_bug_signature` from the
(deletion, modification, insertion) counts. -/
def fixTypeOf (del mod ins : Nat) : String :=
  if 0 < mod then "modification"
  else if 0 < del ∧ 0 < ins then "complex"
  else if 0 < del then "deletion"
  else if 0 < ins then "insertion_fix"
  else "unknown"

/-- `extract_bug_signature(file_before_fix, file_after_fix, context_window)`
from `src/bug_signature.py`: hybrid-diffs the preprocessed lines (each
wrapped in a singleton list, as the diff engine expects), classifies the
changed old lines, and collects buggy lines plus surrounding context from
the before-fix file. -/
noncomputable def extract_bug_signature (file_before_fix file_after_fix : FileVersion)
    (context_window : Int) : Option BugSignature :=
  (get_diff_hybrid (file_before_fix.preprocessed.map (fun l => [l]))
      (file_after_fix.preprocessed.map (fun l => [l])) (3 / 5) true).map
    (fun diff_ops =>
      let scan := sigScan diff_ops
      let nums := scan.1
      let lines := file_before_fix.lines
      { buggy_lines := nums.filterMap (fun ln =>
          if 0 ≤ ln ∧ ln < (lines.length : Int) then some (lines.getD ln.toNat []) else none)
        buggy_lines_normalized := nums.filterMap (fun ln =>
          if 0 ≤ ln ∧ ln < (lines.length : Int) then
            some (file_before_fix.preprocessed.getD ln.toNat []) else none)
        line_numbers := nums
        context_before :=
          if nums ≠ [] then
            (intRange (max 0 (minInt nums - context_window)) (minInt nums)).filterMap
              (fun i => if i < (lines.length : Int) then some (lines.getD i.toNat []) else none)
          else []
        context_after :=
          if nums ≠ [] then
            (intRange (maxInt nums + 1)
                (min (lines.length : Int) (maxInt nums + context_window + 1))).filterMap
              (fun i => if i < (lines.length : Int) then some (lines.getD i.toNat []) else none)
          else []
        fix_type := fixTypeOf scan.2.1 scan.2.2.1 scan.2.2.2
        fix_operations := diff_ops })

/-! ### `src/bug_tracking/line_tracker.py` — sliding-window search -/

/-- `" ".join(lines)`. -/
def joinSp (lines : List Str) : Str := List.intercalate [' '] lines

/-!  `_calculate_context_boost(file_version, start_idx, num_lines,
bug_signature)`: average cosine similarity of the stored context against
the raw lines just outside the window; `0.5` when the signature carries no
usable context.  Split into its before/after score lists. -/

/-- The context-before half of `_calculate_context_boost`'s score list. -/
noncomputable def boostBefore (fv : FileVersion) (start_idx : Nat) (sig : BugSignature) :
    List ℝ :=
  if sig.context_before ≠ [] then
    let context_start := start_idx - sig.context_before.length
    let file_ctx := (fv.lines.take start_idx).drop context_start
    if file_ctx ≠ [] then [cosine_similarity (joinSp file_ctx) (joinSp sig.context_before)]
    else []
  else []

/-- The context-after half of `_calculate_context_boost`'s score list. -/
noncomputable def boostAfter (fv : FileVersion) (start_idx num_lines : Nat)
    (sig : BugSignature) : List ℝ :=
  if sig.context_after ≠ [] then
    let context_end := min fv.lines.length (start_idx + num_lines + sig.context_after.length)
    let file_ctx := (fv.lines.take context_end).drop (start_idx + num_lines)
    if file_ctx ≠ [] then [cosine_similarity (joinSp file_ctx) (joinSp sig.context_after)]
    else []
  else []

/-- The combination step of `_calculate_context_boost`. -/
noncomputable def calcContextBoost (fv : FileVersion) (start_idx num_lines : Nat)
    (sig : BugSignature) : ℝ :=
  let scores := boostBefore fv start_idx sig ++ boostAfter fv start_idx num_lines sig
  if scores = [] then 1 / 2 else scores.sum / (scores.length : ℝ)

/-- Per-line score of one window position: both-blank pairs score `1`,
exactly-one-blank pairs score `0`, otherwise `normalized_levenshtein`. -/
noncomputable def windowLineScore (bug_line window_line : Str) : ℝ :=
  if pyStrip bug_line = [] ∧ pyStrip window_line = [] then 1
  else if pyStrip bug_line = [] ∨ pyStrip window_line = [] then 0
  else (normalized_levenshtein bug_line window_line : ℝ)

/-- One window step of `find_bug_in_version`'s sliding search, updating
`(best_score, best_match)`: the final score is `0.8·avg + 0.2·boost`, and a
window is kept only if it strictly improves the best score and reaches the
threshold. -/
noncomputable def windowStep (fv : FileVersion) (sig : BugSignature) (threshold : ℝ)
    (st : ℝ × Option BugMatch) (start_idx : Nat) : ℝ × Option BugMatch :=
  let num_buggy := sig.buggy_lines_normalized.length
  let window := (fv.preprocessed.drop start_idx).take num_buggy
  let line_scores := (sig.buggy_lines_normalized.zip window).map
    (fun p => windowLineScore p.1 p.2)
  if line_scores ≠ [] then
    let avg_score := line_scores.sum / (line_scores.length : ℝ)
    let context_boost := calcContextBoost fv start_idx num_buggy sig
    let final_score := (4 / 5) * avg_score + (1 / 5) * context_boost
    if st.1 < final_score ∧ threshold ≤ final_score then
      (final_score,
        some { version := fv.version
               line_numbers := (List.range num_buggy).map (fun i => ((start_idx + i : Nat) : Int))
               matched_lines := (List.range num_buggy).map (fun i => fv.lines.getD (start_idx + i) [])
               confidence := final_score })
    else st
  else st

/-- `find_bug_in_version(file_version, bug_signature, threshold)` from
`src/bug_tracking/line_tracker.py`. -/
noncomputable def find_bug_in_version (fv : FileVersion) (sig : BugSignature)
    (threshold : ℝ) : Option BugMatch :=
  if sig.is_empty then none
  else if sig.buggy_lines_normalized.length = 0 then none
  else if fv.preprocessed.length < sig.buggy_lines_normalized.length then none
  else
    ((List.range (fv.preprocessed.length - sig.buggy_lines_normalized.length + 1)).foldl
      (windowStep fv sig threshold) (0, none)).2

/-- The scan loop of `find_bug_introduction`: walk the versions newest to
oldest, recording `(version, match)` pairs; stop at the first version with
no accepted match, at which point the introduction version is the smallest
matched version so far (if any); if the scan completes, likewise. -/
noncomputable def fbiGo (sig : BugSignature) (threshold : ℝ) :
    List FileVersion → List (Int × BugMatch) → (Option Int) × List (Int × BugMatch)
  | [], acc => (if acc.isEmpty then none else some (minInt (acc.map Prod.fst)), acc)
  | fv :: rest, acc =>
    match find_bug_in_version fv sig threshold with
    | some m => fbiGo sig threshold rest (acc ++ [(fv.version, m)])
    | none => (if acc.isEmpty then none else some (minInt (acc.map Prod.fst)), acc)

/-- `find_bug_introduction(file_versions, bug_signature, threshold)` from
`src/bug_tracking/line_tracker.py`: returns
`(introduction_version, matches_by_version)`. -/
noncomputable def find_bug_introduction (file_versions : List FileVersion)
    (sig : BugSignature) (threshold : ℝ) : (Option Int) × List (Int × BugMatch) :=
  fbiGo sig threshold file_versions []

/-- `calculate_trace_confidence(bug_signature, matches,
introduction_version, fix_version)` from `src/bug_tracking/line_tracker.py`. -/
noncomputable def calculate_trace_confidence (sig : BugSignature)
    (ms : List (Int × BugMatch)) (introduction_version : Option Int) : ℝ :=
  if ms.isEmpty then 0
  else
    let confs := ms.map (fun m => m.2.confidence)
    let match_quality := confs.sum / (confs.length : ℝ)
    let trace_clarity :=
      if 1 < confs.length then
        max 0 (1 - (confs.map (fun c => (c - match_quality) ^ 2)).sum / (confs.length : ℝ))
      else 1
    let signature_strength := min 1 ((sig.buggy_lines.length : ℝ) / 5)
    let trace_completeness : ℝ := if introduction_version.isSome then 1 else 1 / 2
    min 1 (max 0 ((2 / 5) * match_quality + (3 / 10) * trace_clarity +
      (1 / 5) * signature_strength + (1 / 10) * trace_completeness))

/-! ### `src/bug_tracking/bug_backtracker.py` — `trace_single_bug`

The version loader and commit history collaborators are modelled as
functions `Int → Option FileVersion` (a `none` models
`FileVersionNotFound`) and `Int → Option CommitInfo`. -/

/-- The `for v in range(bug_fix_version-1, -1, -1): try load / except
break` loop: loads versions newest to oldest, truncating at the first
missing one. -/
def collectLoaded (load : Int → Option FileVersion) : List Int → List FileVersion
  | [] => []
  | v :: vs =>
    match load v with
    | some fv => fv :: collectLoaded load vs
    | none => []

/-- Stable ascending-by-version insertion (Python `sorted(..., key=version)`). -/
def insertByVersion (m : BugMatch) : List BugMatch → List BugMatch
  | [] => [m]
  | x :: xs => if m.version ≤ x.version ∧ m.version ≠ x.version then m :: x :: xs
      else x :: insertByVersion m xs

/-- Python `sorted(matches_by_version.values(), key=lambda m: m.version)`. -/
def sortByVersion (l : List BugMatch) : List BugMatch := l.foldr insertByVersion []

/-- `trace_single_bug(file_name, bug_fix_version, similarity_threshold)`
from `src/bug_tracking/bug_backtracker.py`; `Except.error` models the
raised `TraceIncomplete` exceptions (and the unreachable case of the diff
engine falling through). -/
noncomputable def trace_single_bug (load : Int → Option FileVersion)
    (get_commit : Int → Option CommitInfo) (file_name : Str) (bug_fix_version : Int)
    (threshold : ℝ) : Except String BugLineage :=
  let fix_commit := (get_commit bug_fix_version).getD
    { version := bug_fix_version, message := chars "(commit message not found)",
      file_name := file_name, is_bug_fix := true }
  match load bug_fix_version, load (bug_fix_version - 1) with
  | some file_after_fix, some file_before_fix =>
    match extract_bug_signature file_before_fix file_after_fix 3 with
    | none => Except.error "diff engine returned no diff"
    | some bug_signature =>
      if bug_signature.is_empty then
        Except.ok
          { fix_commit := fix_commit
            fix_version := bug_fix_version
            signature := bug_signature
            introduction_commit := none
            introduction_version := -1
            introduction_lines := []
            versions_with_bug := []
            confidence := 0
            commits_between := 0
            trace_complete := false
            error_message := some "No buggy lines identified in fix diff" }
      else
        let versions_to_search := collectLoaded load
          ((List.range (bug_fix_version - 1 + 1).toNat).map (fun i => bug_fix_version - 1 - (i : Int)))
        if versions_to_search = [] then Except.error "No versions available to search"
        else
          let r := find_bug_introduction versions_to_search bug_signature threshold
          let introduction_commit := match r.1 with
            | some v => get_commit v
            | none => none
          let introduction_lines :=
            match r.1 with
            | some v =>
              match r.2.find? (fun p => p.1 == v) with
              | some p => p.2.line_numbers
              | none => if v = 0 then bug_signature.line_numbers else []
            | none => []
          Except.ok
            { fix_commit := fix_commit
              fix_version := bug_fix_version
              signature := bug_signature
              introduction_commit := introduction_commit
              introduction_version := (r.1).getD (-1)
              introduction_lines := introduction_lines
              versions_with_bug := sortByVersion (r.2.map Prod.snd)
              confidence := calculate_trace_confidence bug_signature r.2 r.1
              commits_between := match r.1 with
                | some v => bug_fix_version - v
                | none => 0
              trace_complete := (r.1).isSome
              error_message := none }
  | _, _ => Except.error "Cannot load required versions"

/-! ### Concrete file versions used in the scenario claims -/

/-- The before-fix version of Scenario D: one line `f()`. -/
def fvBeforeD : FileVersion :=
  { version := 1, file_path := chars "v1", lines := [chars "f()"], preprocessed := [chars "f()"] }

/-- The after-fix version of Scenario D: `f()` plus an appended `g()`. -/
def fvAfterD : FileVersion :=
  { version := 2, file_path := chars "v2", lines := [chars "f()", chars "g()"],
    preprocessed := [chars "f()", chars "g()"] }

/-- A one-line bug signature (`"a"`, no context) used to exercise the
sliding-window search on concrete versions. -/
def sigW : BugSignature :=
  { buggy_lines := [chars "a"], buggy_lines_normalized := [chars "a"], line_numbers := [0],
    context_before := [], context_after := [], fix_type := "deletion", fix_operations := [] }

/-- Version 2: still contains the buggy line `a`. -/
def fvM2 : FileVersion :=
  { version := 2, file_path := chars "v2", lines := [chars "a"], preprocessed := [chars "a"] }

/-- Version 1: the line reads `b` — the signature does not match. -/
def fvM1 : FileVersion :=
  { version := 1, file_path := chars "v1", lines := [chars "b"], preprocessed := [chars "b"] }

/-- Version 0: contains `a` again (behind the first miss, never scanned). -/
def fvM0 : FileVersion :=
  { version := 0, file_path := chars "v0", lines := [chars "a"], preprocessed := [chars "a"] }

/-- An empty file at version 1. -/
def fvE1 : FileVersion :=
  { version := 1, file_path := chars "e1", lines := [], preprocessed := [] }

/-- An empty file at version 0. -/
def fvE0 : FileVersion :=
  { version := 0, file_path := chars "e0", lines := [], preprocessed := [] }

/-- A two-version loader serving the empty files `fvE0`, `fvE1`. -/
def loadE : Int → Option FileVersion :=
  fun i => if i = 1 then some fvE1 else if i = 0 then some fvE0 else none

end LHDiff

namespace LHDiff

/-! ## Theorems -/

/-- `match_lines` on two identical one-line lists (`"a"`): the single
difflib equal block anchors the pair; the similarity stage has nothing to
do. -/
theorem match_lines_aa (t : ℝ) : match_lines [chars "a"] [chars "a"] 4 t = [(1, 1)] := by
  unfold match_lines
  have h1 : matchPass1 (get_opcodes [chars "a"] [chars "a"]) = ([(0, 0)], [0], []) := by decide
  simp only [h1, List.foldl_nil]
  decide

/-- `match_lines` on two identical one-line lists (`"return true"`). -/
theorem match_lines_rt (t : ℝ) :
    match_lines [chars "return true"] [chars "return true"] 4 t = [(1, 1)] := by
  unfold match_lines
  have h1 : matchPass1 (get_opcodes [chars "return true"] [chars "return true"])
      = ([(0, 0)], [0], []) := by decide
  simp only [h1, List.foldl_nil]
  decide

/-- `match_lines ["f()"] ["f()", "g()"]`: the equal block `f()` anchors
`(1,1)`; the remaining insert block has no old lines to pair. -/
theorem match_lines_fg (t : ℝ) :
    match_lines [chars "f()"] [chars "f()", chars "g()"] 4 t = [(1, 1)] := by
  unfold match_lines
  have h1 : matchPass1 (get_opcodes [chars "f()"] [chars "f()", chars "g()"])
      = ([(0, 0)], [0], [((1, 1), 1, 2)]) := by decide
  simp only [h1, List.foldl_cons, List.foldl_nil]
  unfold matchPass2Block
  norm_num
  decide

/-- The similarity stage of the hybrid diff on `old = ["a"]`, `new = ["a"]`
with leftovers `{0}`/`{0}` recovers the identical line as a (0-based)
similarity pair. -/
theorem hybridSim_aa (t : ℝ) : hybridSim [chars "a"] [chars "a"] t true [0] [0] = [(0, 0)] := by
  unfold hybridSim
  rw [if_pos (by decide)]
  have hm : ([0] : List Nat).map (fun i => ([chars "a"] : List Str).getD i []) = [chars "a"] := by
    decide
  rw [hm, match_lines_aa]
  decide

/-- The similarity stage on `old = ["a"]`, `new = ["x", "a"]` with
leftovers `{0}`/`{1}`. -/
theorem hybridSim_axa (t : ℝ) :
    hybridSim [chars "a"] [chars "x", chars "a"] t true [0] [1] = [(0, 1)] := by
  unfold hybridSim
  rw [if_pos (by decide)]
  have hm : ([0] : List Nat).map (fun i => ([chars "a"] : List Str).getD i []) = [chars "a"] := by
    decide
  have hm' : ([1] : List Nat).map (fun i => ([chars "x", chars "a"] : List Str).getD i [])
      = [chars "a"] := by decide
  rw [hm, hm', match_lines_aa]
  decide

/-- The similarity stage on Scenario C's leftovers (`"return true"` on both
sides, at position 1 of each file). -/
theorem hybridSim_sc (t : ℝ) :
    hybridSim [chars "if x == null", chars "return true"]
      [chars "if x != null", chars "return true"] t true [1] [1] = [(1, 1)] := by
  unfold hybridSim
  rw [if_pos (by decide)]
  have hm : ([1] : List Nat).map
      (fun i => ([chars "if x == null", chars "return true"] : List Str).getD i [])
      = [chars "return true"] := by decide
  have hm' : ([1] : List Nat).map
      (fun i => ([chars "if x != null", chars "return true"] : List Str).getD i [])
      = [chars "return true"] := by decide
  rw [hm, hm', match_lines_rt]
  decide

/-- The similarity stage on Scenario D's leftovers. -/
theorem hybridSim_fg (t : ℝ) :
    hybridSim [chars "f()"] [chars "f()", chars "g()"] t true [0] [0, 1] = [(0, 0)] := by
  unfold hybridSim
  rw [if_pos (by decide)]
  have hm : ([0] : List Nat).map (fun i => ([chars "f()"] : List Str).getD i []) = [chars "f()"] := by
    decide
  have hm' : ([0, 1] : List Nat).map
      (fun i => ([chars "f()", chars "g()"] : List Str).getD i [])
      = [chars "f()", chars "g()"] := by decide
  rw [hm, hm', match_lines_fg]
  decide

/-- `get_diff_hybrid(["a"], ["a"])` with default parameters evaluates to
the single similarity token `1~1` (not the exact-match token `1:1`): the
exact aligner reports its match as the 0-based token `0:0`, which the
1-based parsing of `get_diff_hybrid` shifts off the grid, so the line is
re-matched by the similarity stage. -/
theorem get_diff_hybrid_aa :
    get_diff_hybrid [[chars "a"]] [[chars "a"]] (3 / 5) true = some [chars "1~1"] := by
  unfold get_diff_hybrid
  have hd : get_diff [[chars "a"]] [[chars "a"]] = some [chars "0:0"] := by decide
  rw [hd]
  have hmap : [[chars "a"]].map lineStr = [chars "a"] := by decide
  simp only [Option.map, hmap]
  have hp : hybridParse [chars "0:0"] = ([(-1, -1)], [-1], [-1]) := by decide
  simp only [hybridAssemble, hp]
  rw [show hybridUnmatched [chars "a"].length [-1] = [0] from by decide]
  rw [hybridSim_aa]
  decide

/-- `get_diff_hybrid(["a"], ["x", "a"])` with default parameters evaluates
to the single token `1~2`: the exact aligner emits `["0+", "0:1"]`
(0-based), whose parse marks old `-1`/new `0` as matched, so old line 1 is
similarity-matched to new line 2 and no token at all covers new line 1. -/
theorem get_diff_hybrid_axa :
    get_diff_hybrid [[chars "a"]] [[chars "x"], [chars "a"]] (3 / 5) true
      = some [chars "1~2"] := by
  unfold get_diff_hybrid
  have hd : get_diff [[chars "a"]] [[chars "x"], [chars "a"]]
      = some [chars "0+", chars "0:1"] := by decide
  rw [hd]
  have hmap : [[chars "a"]].map lineStr = [chars "a"] := by decide
  have hmap' : [[chars "x"], [chars "a"]].map lineStr = [chars "x", chars "a"] := by decide
  simp only [Option.map, hmap, hmap']
  have hp : hybridParse [chars "0+", chars "0:1"] = ([(-1, 0)], [-1], [0]) := by decide
  simp only [hybridAssemble, hp]
  rw [show hybridUnmatched [chars "a"].length [-1] = [0] from by decide]
  rw [show hybridUnmatched [chars "x", chars "a"].length [0] = [1] from by decide]
  rw [hybridSim_axa]
  decide

/-- `get_diff_hybrid` on Scenario C's (already normalized) lines evaluates
to `["1:1", "2~2"]`: the 0-based/1-based shift turns the exact match of
line 2 into a spurious exact match `1:1` of the *changed* line, and the
actually-identical line 2 into a similarity match. -/
theorem get_diff_hybrid_scC :
    get_diff_hybrid [[chars "if x == null"], [chars "return true"]]
      [[chars "if x != null"], [chars "return true"]] (3 / 5) true
      = some [chars "1:1", chars "2~2"] := by
  unfold get_diff_hybrid
  have hd : get_diff [[chars "if x == null"], [chars "return true"]]
      [[chars "if x != null"], [chars "return true"]]
      = some [chars "0-", chars "0+", chars "1:1"] := by decide
  rw [hd]
  have hmap : [[chars "if x == null"], [chars "return true"]].map lineStr
      = [chars "if x == null", chars "return true"] := by decide
  have hmap' : [[chars "if x != null"], [chars "return true"]].map lineStr
      = [chars "if x != null", chars "return true"] := by decide
  simp only [Option.map, hmap, hmap']
  have hp : hybridParse [chars "0-", chars "0+", chars "1:1"] = ([(0, 0)], [0], [0]) := by decide
  simp only [hybridAssemble, hp]
  rw [show hybridUnmatched [chars "if x == null", chars "return true"].length [0] = [1]
    from by decide]
  rw [show hybridUnmatched [chars "if x != null", chars "return true"].length [0] = [1]
    from by decide]
  rw [hybridSim_sc]
  decide

/-- `get_diff_hybrid` on Scenario D's preprocessed lines evaluates to
`["1~1", "2+"]`. -/
theorem get_diff_hybrid_scD :
    get_diff_hybrid [[chars "f()"]] [[chars "f()"], [chars "g()"]] (3 / 5) true
      = some [chars "1~1", chars "2+"] := by
  unfold get_diff_hybrid
  have hd : get_diff [[chars "f()"]] [[chars "f()"], [chars "g()"]]
      = some [chars "0:0", chars "1+"] := by decide
  rw [hd]
  have hmap : [[chars "f()"]].map lineStr = [chars "f()"] := by decide
  have hmap' : [[chars "f()"], [chars "g()"]].map lineStr = [chars "f()", chars "g()"] := by decide
  simp only [Option.map, hmap, hmap']
  have hp : hybridParse [chars "0:0", chars "1+"] = ([(-1, -1)], [-1], [-1]) := by decide
  simp only [hybridAssemble, hp]
  rw [show hybridUnmatched [chars "f()"].length [-1] = [0] from by decide]
  rw [show hybridUnmatched [chars "f()", chars "g()"].length [-1] = [0, 1] from by decide]
  rw [hybridSim_fg]
  decide

/-- `extract_bug_signature` on Scenario D: the diff `["1~1", "2+"]` makes
the fix a `modification`; buggy line number 1 is out of range for the
0-based read-back from the one-line before file, so no buggy lines are
collected and the signature is empty. -/
theorem extract_scD :
    extract_bug_signature fvBeforeD fvAfterD 3 = some
      { buggy_lines := [], buggy_lines_normalized := [], line_numbers := [1],
        context_before := [chars "f()"], context_after := [],
        fix_type := "modification", fix_operations := [chars "1~1", chars "2+"] } := by
  unfold extract_bug_signature
  have hm : fvBeforeD.preprocessed.map (fun l => [l]) = [[chars "f()"]] := by decide
  have hm' : fvAfterD.preprocessed.map (fun l => [l]) = [[chars "f()"], [chars "g()"]] := by decide
  rw [hm, hm', get_diff_hybrid_scD]
  simp only [Option.map]
  decide

/-- C1: for `old = ["a"]`, `new = ["x", "a"]` the hybrid diff (default
threshold, similarity on) returns exactly `["1~2"]`, so new index 1 appears
in **no** exact-match, similarity-match or insertion token: the partition
invariant on the new side is violated.  (Root cause: `reconstruct_from_trace`
emits 0-based tokens but `get_diff_hybrid` parses them as 1-based.) -/
theorem C1_partition_invariant_violated :
    get_diff_hybrid [[chars "a"]] [[chars "x"], [chars "a"]] (3 / 5) true = some [chars "1~2"] ∧
    ([chars "1~2"].filterMap tokNewIdx).count 1 = 0 :=
  ⟨get_diff_hybrid_axa, by decide⟩

/-- C2: `get_diff_hybrid(old, old)` with default parameters is *not* the
pure exact-match stream: already for `old = ["a"]` it returns the
similarity token `1~1` instead of `1:1`. -/
theorem C2_self_diff_not_all_exact :
    get_diff_hybrid [[chars "a"]] [[chars "a"]] (3 / 5) true = some [chars "1~1"] ∧
    some [chars "1~1"] ≠ some [chars "1:1"] :=
  ⟨get_diff_hybrid_aa, by decide⟩

/-- C3: on Scenario C's normalized lines the hybrid diff returns
`["1:1", "2~2"]` — an exact match for the *changed* line 1 and a similarity
match for the *identical* line 2 — not the claimed `["1~1", "2:2"]`. -/
theorem C3_scenarioC_tokens_swapped :
    get_diff_hybrid [[chars "if x == null"], [chars "return true"]]
      [[chars "if x != null"], [chars "return true"]] (3 / 5) true
      = some [chars "1:1", chars "2~2"] ∧
    some [chars "1:1", chars "2~2"] ≠ some [chars "1~1", chars "2:2"] :=
  ⟨get_diff_hybrid_scC, by decide⟩

/-- C4: the exact aligner's tokens are 0-based, not 1-based: on
`old = new = ["a"]` it emits `0:0`, whose old index 0 lies outside
`1..len(old)`. -/
theorem C4_get_diff_tokens_zero_based :
    get_diff [chars "a"] [chars "a"] = some [chars "0:0"] ∧
    tokOldIdx (chars "0:0") = some 0 ∧ tokNewIdx (chars "0:0") = some 0 ∧
    ¬ (1 : Int) ≤ 0 :=
  ⟨by decide, by decide, by decide, by decide⟩

/-- With sufficient fuel, the Levenshtein recursion is bounded by the
longer input's length. -/
theorem levRecF_le_max : ∀ (fuel : Nat) (a b : Str), a.length + b.length < fuel →
    levRecF fuel a b ≤ max a.length b.length := by
  intro fuel
  induction fuel with
  | zero => intro a b h; omega
  | succ fuel ih =>
    intro a b h
    cases a with
    | nil => simp [levRecF]
    | cons c as' =>
      cases b with
      | nil => simp [levRecF]
      | cons d bs =>
        simp only [List.length_cons] at h
        rw [levRecF]
        split
        · have := ih as' bs (by omega)
          simp only [List.length_cons]
          omega
        · have h1 := ih as' (d :: bs) (by simp only [List.length_cons]; omega)
          have h2 := ih (c :: as') bs (by simp only [List.length_cons]; omega)
          have h3 := ih as' bs (by omega)
          simp only [List.length_cons] at *
          omega

/-- The Levenshtein recursion is bounded by the longer input's length. -/
theorem levRec_le_max (a : Str) : ∀ b : Str, levRec a b ≤ max a.length b.length :=
  fun b => levRecF_le_max _ a b (by omega)

/-- `levenshtein` is bounded by the longer input's length. -/
theorem levenshtein_le_max (a b : Str) : levenshtein a b ≤ max a.length b.length := by
  unfold levenshtein
  split_ifs with h1 h2 h3
  · omega
  · simp [List.length_eq_zero.mp h2]
  · simp [List.length_eq_zero.mp h3]
  · exact levRec_le_max a b

/-- `normalized_levenshtein` lands in `[0, 1]`. -/
theorem normalized_levenshtein_bounds (a b : Str) :
    0 ≤ normalized_levenshtein a b ∧ normalized_levenshtein a b ≤ 1 := by
  unfold normalized_levenshtein
  split_ifs with h
  · norm_num
  · have hmax : (0 : ℚ) < max (a.length : ℚ) (b.length : ℚ) := by
      have h' : a ≠ [] ∨ b ≠ [] := by tauto
      rcases h' with h' | h'
      · exact lt_max_of_lt_left (by exact_mod_cast List.length_pos.mpr h')
      · exact lt_max_of_lt_right (by exact_mod_cast List.length_pos.mpr h')
    constructor
    · have hle : (levenshtein a b : ℚ) ≤ max (a.length : ℚ) (b.length : ℚ) := by
        have := levenshtein_le_max a b
        have h2 : ((max a.length b.length : ℕ) : ℚ) = max (a.length : ℚ) (b.length : ℚ) := by
          push_cast; rfl
        rw [← h2]
        exact_mod_cast this
      have := div_le_one_of_le₀ hle (le_of_lt hmax)
      linarith
    · have : 0 ≤ (levenshtein a b : ℚ) / max (a.length : ℚ) (b.length : ℚ) :=
        div_nonneg (by positivity) (le_of_lt hmax)
      linarith

/-- `cosine_similarity` lands in `[0, 1]` (Cauchy–Schwarz for the generic
branch). -/
theorem cosine_similarity_bounds (a b : Str) :
    0 ≤ cosine_similarity a b ∧ cosine_similarity a b ≤ 1 := by
  simp only [cosine_similarity]
  split_ifs with h1 h2 h3
  · norm_num
  · norm_num
  · norm_num
  · set W1 := (pySplit a).toFinset with hW1
    set W2 := (pySplit b).toFinset with hW2
    set c1 : Str → ℝ := fun w => ((pySplit a).count w : ℝ) with hc1
    set c2 : Str → ℝ := fun w => ((pySplit b).count w : ℝ) with hc2
    set S1 : ℝ := ∑ w ∈ W1, c1 w ^ 2 with hS1
    set S2 : ℝ := ∑ w ∈ W2, c2 w ^ 2 with hS2
    have hS1n : 0 ≤ S1 := Finset.sum_nonneg fun w _ => sq_nonneg _
    have hS2n : 0 ≤ S2 := Finset.sum_nonneg fun w _ => sq_nonneg _
    have hsq1 : 0 < Real.sqrt S1 := by
      rcases lt_or_eq_of_le (Real.sqrt_nonneg S1) with h | h
      · exact h
      · exact absurd (Or.inl h.symm) h3
    have hsq2 : 0 < Real.sqrt S2 := by
      rcases lt_or_eq_of_le (Real.sqrt_nonneg S2) with h | h
      · exact h
      · exact absurd (Or.inr h.symm) h3
    have hdotn : (0 : ℝ) ≤ ((∑ w ∈ W1 ∩ W2, (pySplit a).count w * (pySplit b).count w : ℕ) : ℝ) :=
      Nat.cast_nonneg _
    refine ⟨div_nonneg hdotn (by positivity), ?_⟩
    rw [div_le_one (by positivity)]
    -- rewrite the dot product and the two norms as sums over the union
    have hsub1 : W1 ∩ W2 ⊆ W1 ∪ W2 :=
      le_trans (Finset.inter_subset_left) (Finset.subset_union_left)
    have hdot_ext :
        ((∑ w ∈ W1 ∩ W2, (pySplit a).count w * (pySplit b).count w : ℕ) : ℝ)
          = ∑ w ∈ W1 ∪ W2, c1 w * c2 w := by
      push_cast
      refine Finset.sum_subset hsub1 ?_
      intro w _ hw
      rcases Finset.mem_union.mp (by assumption) with _ | _ <;>
      · simp only [Finset.mem_inter, not_and] at hw
        rcases Decidable.em (w ∈ W1) with h | h
        · have : w ∉ W2 := hw h
          have : (pySplit b).count w = 0 := by
            rw [List.count_eq_zero]
            intro hmem
            exact this (List.mem_toFinset.mpr hmem)
          simp [hc1, hc2, this]
        · have : (pySplit a).count w = 0 := by
            rw [List.count_eq_zero]
            intro hmem
            exact h (List.mem_toFinset.mpr hmem)
          simp [hc1, hc2, this]
    have hS1_ext : S1 = ∑ w ∈ W1 ∪ W2, c1 w ^ 2 := by
      refine Finset.sum_subset (Finset.subset_union_left) ?_
      intro w _ hw
      have : (pySplit a).count w = 0 := by
        rw [List.count_eq_zero]
        intro hmem
        exact hw (List.mem_toFinset.mpr hmem)
      simp [hc1, this]
    have hS2_ext : S2 = ∑ w ∈ W1 ∪ W2, c2 w ^ 2 := by
      refine Finset.sum_subset (Finset.subset_union_right) ?_
      intro w _ hw
      have : (pySplit b).count w = 0 := by
        rw [List.count_eq_zero]
        intro hmem
        exact hw (List.mem_toFinset.mpr hmem)
      simp [hc2, this]
    have hcs : (∑ w ∈ W1 ∪ W2, c1 w * c2 w) ^ 2
        ≤ (∑ w ∈ W1 ∪ W2, c1 w ^ 2) * ∑ w ∈ W1 ∪ W2, c2 w ^ 2 :=
      Finset.sum_mul_sq_le_sq_mul_sq (W1 ∪ W2) c1 c2
    rw [hdot_ext]
    have hdot_ext_nonneg : 0 ≤ ∑ w ∈ W1 ∪ W2, c1 w * c2 w := by
      rw [← hdot_ext]; exact hdotn
    have : ∑ w ∈ W1 ∪ W2, c1 w * c2 w ≤ Real.sqrt (S1 * S2) := by
      rw [show Real.sqrt (S1 * S2) = Real.sqrt S1 * Real.sqrt S2 from Real.sqrt_mul hS1n S2]
        at *
      calc ∑ w ∈ W1 ∪ W2, c1 w * c2 w
          = Real.sqrt ((∑ w ∈ W1 ∪ W2, c1 w * c2 w) ^ 2) := by
            rw [Real.sqrt_sq hdot_ext_nonneg]
        _ ≤ Real.sqrt ((∑ w ∈ W1 ∪ W2, c1 w ^ 2) * ∑ w ∈ W1 ∪ W2, c2 w ^ 2) :=
            Real.sqrt_le_sqrt hcs
        _ = Real.sqrt S1 * Real.sqrt S2 := by
            rw [← hS1_ext, ← hS2_ext, Real.sqrt_mul hS1n]
    calc ∑ w ∈ W1 ∪ W2, c1 w * c2 w ≤ Real.sqrt (S1 * S2) := this
      _ = Real.sqrt S1 * Real.sqrt S2 := Real.sqrt_mul hS1n S2

/-- C8 (amended): both similarity metrics land in `[0,1]`;
`normalized_levenshtein` is `1` on two empty strings and `0` when exactly
one side is empty; `cosine_similarity` is `1` when both sides are *blank*
(empty or whitespace-only) and `0` when exactly one side is blank — the
all-blank test uses `strip()`, so emptiness of the stripped text, not of
the raw text, is what decides. -/
theorem C8_similarity_bounds :
    (∀ a b : Str, 0 ≤ normalized_levenshtein a b ∧ normalized_levenshtein a b ≤ 1) ∧
    (∀ a b : Str, 0 ≤ cosine_similarity a b ∧ cosine_similarity a b ≤ 1) ∧
    normalized_levenshtein [] [] = 1 ∧
    (∀ a b : Str, (a = [] ∧ b ≠ []) ∨ (a ≠ [] ∧ b = []) → normalized_levenshtein a b = 0) ∧
    (∀ a b : Str, pyStrip a = [] ∧ pyStrip b = [] → cosine_similarity a b = 1) ∧
    (∀ a b : Str, (pyStrip a = [] ∧ pyStrip b ≠ []) ∨ (pyStrip a ≠ [] ∧ pyStrip b = []) →
      cosine_similarity a b = 0) := by
  refine ⟨normalized_levenshtein_bounds, cosine_similarity_bounds, by norm_num [normalized_levenshtein], ?_, ?_, ?_⟩
  · intro a b h
    unfold normalized_levenshtein
    rw [if_neg (by tauto)]
    rcases h with ⟨ha, hb⟩ | ⟨ha, hb⟩
    · subst ha
      have hb' : 0 < b.length := List.length_pos.mpr hb
      have hbq : (0 : ℚ) < (b.length : ℚ) := by exact_mod_cast hb'
      unfold levenshtein
      rw [if_neg (fun hab => hb hab.symm), if_pos (by simp)]
      simp only [List.length_nil, Nat.cast_zero, max_eq_right hbq.le]
      field_simp
    · subst hb
      have ha' : 0 < a.length := List.length_pos.mpr ha
      have haq : (0 : ℚ) < (a.length : ℚ) := by exact_mod_cast ha'
      unfold levenshtein
      rw [if_neg (fun hab => ha hab), if_neg (by simpa using ha), if_pos (by simp)]
      simp only [List.length_nil, Nat.cast_zero, max_eq_left haq.le]
      field_simp
  · intro a b h
    unfold cosine_similarity
    rw [if_pos h]
  · intro a b h
    unfold cosine_similarity
    rw [if_neg (by tauto), if_pos (by tauto)]

/-- C8 witness: the conditional clauses at concrete inputs. -/
theorem C8_similarity_bounds_witness :
    normalized_levenshtein [] (chars "ab") = 0 ∧ cosine_similarity (chars " ") (chars "x") = 0 :=
  ⟨C8_similarity_bounds.2.2.2.1 [] (chars "ab") (Or.inl ⟨rfl, by decide⟩),
   C8_similarity_bounds.2.2.2.2.2 (chars " ") (chars "x") (Or.inl ⟨by decide, by decide⟩)⟩

/-- The counterexample to C8 as stated: `cosine_similarity("", " ")` — the
second input is whitespace, only the first is empty — returns `1.0`, not
`0.0`, because the both-blank branch tests stripped emptiness. -/
theorem C8_cosine_empty_vs_blank :
    cosine_similarity (chars "") (chars " ") = 1 ∧
    chars " " ≠ chars "" ∧ (1 : ℝ) ≠ 0 := by
  refine ⟨?_, by decide, one_ne_zero⟩
  unfold cosine_similarity
  rw [if_pos (by decide)]

/-- A fold preserves any invariant preserved by its step function. -/
theorem foldl_inv {β σ : Type*} (f : σ → β → σ) (P : σ → Prop) :
    ∀ (l : List β) (s : σ), (∀ s' x, x ∈ l → P s' → P (f s' x)) → P s → P (l.foldl f s) := by
  intro l
  induction l with
  | nil => intro s _ h; exact h
  | cons x xs ih =>
    intro s hstep h
    exact ih (f s x) (fun s' y hy => hstep s' y (List.mem_cons_of_mem _ hy))
      (hstep s x (List.mem_cons_self _ _) h)

/-- Reading `k` elements of `l` from position `start` by index equals the
`take`/`drop` slice, when the slice lies inside the list. -/
theorem range_map_getD_eq_drop_take {α : Type} (l : List α) (d : α) :
    ∀ (k start : Nat), start + k ≤ l.length →
    (List.range k).map (fun i => l.getD (start + i) d) = (l.drop start).take k := by
  intro k
  induction k with
  | zero => intro start _; simp
  | succ k ih =>
    intro start h
    have hlt : start < l.length := by omega
    rw [List.range_succ_eq_map, List.map_cons, List.map_map]
    have hcomp : ((fun i => l.getD (start + i) d) ∘ (fun i => i + 1))
        = fun i => l.getD ((start + 1) + i) d := by
      funext i
      simp only [Function.comp]
      congr 1
      omega
    rw [hcomp, ih (start + 1) (by omega), List.drop_eq_getElem_cons hlt]
    show l.getD (start + 0) d :: _ = _
    rw [List.take_succ_cons, Nat.add_zero, List.getD_eq_getElem l d hlt]

/-- `normalized_levenshtein` on two copies of `"a"`. -/
theorem nl_aa : normalized_levenshtein (chars "a") (chars "a") = 1 := by
  have h0 : levenshtein (chars "a") (chars "a") = 0 := by decide
  have hl : (chars "a").length = 1 := by decide
  unfold normalized_levenshtein
  rw [if_neg (by decide), h0, hl]
  norm_num

/-- `normalized_levenshtein "a" "b"`. -/
theorem nl_ab : normalized_levenshtein (chars "a") (chars "b") = 0 := by
  have h0 : levenshtein (chars "a") (chars "b") = 1 := by decide
  have hl : (chars "a").length = 1 := by decide
  have hl' : (chars "b").length = 1 := by decide
  unfold normalized_levenshtein
  rw [if_neg (by decide), h0, hl, hl']
  norm_num

/-- Window line score of `"a"` against itself. -/
theorem wls_aa : windowLineScore (chars "a") (chars "a") = 1 := by
  unfold windowLineScore
  rw [if_neg (by decide), if_neg (by decide), nl_aa]
  norm_num

/-- Window line score of `"a"` against `"b"`. -/
theorem wls_ab : windowLineScore (chars "a") (chars "b") = 0 := by
  unfold windowLineScore
  rw [if_neg (by decide), if_neg (by decide), nl_ab]
  norm_num

/-- `sigW` carries no before-context. -/
theorem boostBefore_W (fv : FileVersion) (s : Nat) : boostBefore fv s sigW = [] := by
  unfold boostBefore
  rw [if_neg (by decide)]

/-- `sigW` carries no after-context. -/
theorem boostAfter_W (fv : FileVersion) (s n : Nat) : boostAfter fv s n sigW = [] := by
  unfold boostAfter
  rw [if_neg (by decide)]

/-- With no context the boost defaults to `0.5`. -/
theorem boost_W (fv : FileVersion) (s n : Nat) : calcContextBoost fv s n sigW = 1 / 2 := by
  unfold calcContextBoost
  rw [boostBefore_W, boostAfter_W]
  simp

/-- The signature `sigW` is found in `fvM2` with score
`0.8·1 + 0.2·0.5 = 0.9`. -/
theorem fbv_M2 : find_bug_in_version fvM2 sigW (7 / 10)
    = some { version := 2, line_numbers := [0], matched_lines := [chars "a"],
             confidence := 9 / 10 } := by
  unfold find_bug_in_version
  rw [if_neg (by decide), if_neg (by decide), if_neg (by decide)]
  rw [show List.range (fvM2.preprocessed.length - sigW.buggy_lines_normalized.length + 1)
    = [0] from by decide]
  simp only [List.foldl_cons, List.foldl_nil, windowStep]
  rw [show sigW.buggy_lines_normalized.length = 1 from by decide]
  rw [show (fvM2.preprocessed.drop 0).take 1 = [chars "a"] from by decide]
  rw [show sigW.buggy_lines_normalized.zip [chars "a"] = [(chars "a", chars "a")] from by decide]
  simp only [List.map_cons, List.map_nil, wls_aa]
  rw [if_pos (show ¬([(1 : ℝ)] = []) from by simp), boost_W]
  rw [if_pos (by norm_num)]
  simp only [Option.some.injEq, BugMatch.mk.injEq]
  refine ⟨by decide, by decide, by decide, by norm_num⟩

/-- The signature `sigW` scores only `0.8·0 + 0.2·0.5 = 0.1 < 0.7` in
`fvM1`, so no match is returned. -/
theorem fbv_M1 : find_bug_in_version fvM1 sigW (7 / 10) = none := by
  unfold find_bug_in_version
  rw [if_neg (by decide), if_neg (by decide), if_neg (by decide)]
  rw [show List.range (fvM1.preprocessed.length - sigW.buggy_lines_normalized.length + 1)
    = [0] from by decide]
  simp only [List.foldl_cons, List.foldl_nil, windowStep]
  rw [show sigW.buggy_lines_normalized.length = 1 from by decide]
  rw [show (fvM1.preprocessed.drop 0).take 1 = [chars "b"] from by decide]
  rw [show sigW.buggy_lines_normalized.zip [chars "b"] = [(chars "a", chars "b")] from by decide]
  simp only [List.map_cons, List.map_nil, wls_ab]
  rw [if_pos (show ¬([(0 : ℝ)] = []) from by simp), boost_W]
  rw [if_neg (by norm_num)]

/-- C10: whenever `find_bug_in_version` returns a match (for a file
version whose preprocessed lines do not outnumber its raw lines, as holds
for every loader-built version), the match's confidence reaches the
threshold, its `line_numbers` are the `k` consecutive 0-based indices of a
window that fits in the file, and its `matched_lines` are the raw lines of
exactly that window; a version with fewer than `k` preprocessed lines never
matches. -/
theorem C10_find_bug_in_version_spec (fv : FileVersion) (sig : BugSignature) (t : ℝ)
    (hlen : fv.preprocessed.length ≤ fv.lines.length) :
    (∀ m, find_bug_in_version fv sig t = some m →
      t ≤ m.confidence ∧ m.version = fv.version ∧
      ∃ start, start + sig.buggy_lines_normalized.length ≤ fv.preprocessed.length ∧
        m.line_numbers = (List.range sig.buggy_lines_normalized.length).map
          (fun i => ((start + i : Nat) : Int)) ∧
        m.matched_lines = (fv.lines.drop start).take sig.buggy_lines_normalized.length) ∧
    (fv.preprocessed.length < sig.buggy_lines_normalized.length →
      find_bug_in_version fv sig t = none) := by
  constructor
  · intro m hm
    unfold find_bug_in_version at hm
    split_ifs at hm with h1 h2 h3
    -- the guard branches leave `hm : none = some m`, which `split_ifs` closes
    have hk_le : sig.buggy_lines_normalized.length ≤ fv.preprocessed.length := by omega
    have key := foldl_inv (windowStep fv sig t)
      (fun s => ∀ m', s.2 = some m' →
        t ≤ m'.confidence ∧ m'.version = fv.version ∧
        ∃ start, start + sig.buggy_lines_normalized.length ≤ fv.preprocessed.length ∧
          m'.line_numbers = (List.range sig.buggy_lines_normalized.length).map
            (fun i => ((start + i : Nat) : Int)) ∧
          m'.matched_lines = (List.range sig.buggy_lines_normalized.length).map
            (fun i => fv.lines.getD (start + i) []))
      (List.range (fv.preprocessed.length - sig.buggy_lines_normalized.length + 1)) (0, none)
      (by
        intro s x hx hP
        have hxlt := List.mem_range.mp hx
        simp only [windowStep]
        split_ifs with h4 h5
        · intro m' heq
          obtain rfl := Option.some.inj heq
          refine ⟨h5.2, rfl, x, by omega, rfl, rfl⟩
        · exact hP
        · exact hP)
      (by intro m' h; simp at h)
    obtain ⟨hconf, hver, start, hstart, hnums, hlines⟩ := key m hm
    refine ⟨hconf, hver, start, hstart, hnums, ?_⟩
    rw [hlines, range_map_getD_eq_drop_take fv.lines [] sig.buggy_lines_normalized.length
      start (by omega)]
  · intro hsmall
    unfold find_bug_in_version
    by_cases h1 : sig.is_empty = true
    · rw [if_pos h1]
    · rw [if_neg h1]
      by_cases h2 : sig.buggy_lines_normalized.length = 0
      · rw [if_pos h2]
      · rw [if_neg h2, if_pos hsmall]

/-- C10 witness: the specification instantiated at the concrete version
`fvM2` and signature `sigW`. -/
theorem C10_find_bug_in_version_spec_witness :
    fvM2.preprocessed.length ≤ fvM2.lines.length ∧
    ((∀ m, find_bug_in_version fvM2 sigW (7 / 10) = some m →
      (7 : ℝ) / 10 ≤ m.confidence ∧ m.version = fvM2.version ∧
      ∃ start, start + sigW.buggy_lines_normalized.length ≤ fvM2.preprocessed.length ∧
        m.line_numbers = (List.range sigW.buggy_lines_normalized.length).map
          (fun i => ((start + i : Nat) : Int)) ∧
        m.matched_lines = (fvM2.lines.drop start).take sigW.buggy_lines_normalized.length) ∧
    (fvM2.preprocessed.length < sigW.buggy_lines_normalized.length →
      find_bug_in_version fvM2 sigW (7 / 10) = none)) :=
  ⟨by decide, C10_find_bug_in_version_spec fvM2 sigW (7 / 10) (by decide)⟩

/-- A prefix of versions that all match only shifts its `(version, match)`
pairs into the accumulator. -/
theorem fbiGo_all_matched (sig : BugSignature) (t : ℝ) :
    ∀ (pre : List FileVersion), (∀ u ∈ pre, (find_bug_in_version u sig t).isSome) →
    ∃ ms : List (Int × BugMatch), ms.map Prod.fst = pre.map FileVersion.version ∧
      ∀ rest acc, fbiGo sig t (pre ++ rest) acc = fbiGo sig t rest (acc ++ ms) := by
  intro pre
  induction pre with
  | nil => intro _; exact ⟨[], rfl, fun rest acc => by simp⟩
  | cons u pre' ih =>
    intro hpre
    have hu := hpre u (List.mem_cons_self _ _)
    rcases Option.isSome_iff_exists.mp hu with ⟨m, hm⟩
    rcases ih (fun v hv => hpre v (List.mem_cons_of_mem _ hv)) with ⟨ms', hms', heq⟩
    refine ⟨(u.version, m) :: ms', by simp only [List.map_cons, hms'], ?_⟩
    intro rest acc
    have step : fbiGo sig t ((u :: pre') ++ rest) acc
        = fbiGo sig t (pre' ++ rest) (acc ++ [(u.version, m)]) := by
      simp only [List.cons_append, fbiGo, hm, List.append_eq]
    rw [step, heq rest (acc ++ [(u.version, m)])]
    simp

/-- At the first version with no accepted match the scan stops and returns
the smallest accumulated version (if any); the tail is never examined. -/
theorem fbiGo_miss (sig : BugSignature) (t : ℝ) (v : FileVersion)
    (hv : find_bug_in_version v sig t = none) (post : List FileVersion)
    (acc : List (Int × BugMatch)) :
    fbiGo sig t (v :: post) acc
      = (if acc.isEmpty then none else some (minInt (acc.map Prod.fst)), acc) := by
  simp only [fbiGo, hv]

/-- The minimum of a strictly decreasing list is its last element. -/
theorem minInt_sorted : ∀ (l : List Int) (h : l ≠ []), l.Sorted (· > ·) →
    minInt l = l.getLast h := by
  intro l
  induction l with
  | nil => intro h; exact absurd rfl h
  | cons x xs ih =>
    intro _ hs
    cases xs with
    | nil => simp [minInt]
    | cons y ys =>
      have hxy : x > y := (List.sorted_cons.mp hs).1 y (List.mem_cons_self _ _)
      have hs' : (y :: ys).Sorted (· > ·) := (List.sorted_cons.mp hs).2
      have h1 : minInt (x :: y :: ys) = minInt (y :: ys) := by
        simp only [minInt, List.foldl_cons]
        rw [min_comm x y, min_eq_left (le_of_lt hxy)]
      rw [h1, ih (by simp) hs']
      exact (List.getLast_cons (by simp)).symm

/-- `getLast?` form of `minInt_sorted`. -/
theorem minInt_getLast? (l : List Int) (x : Int) (hs : l.Sorted (· > ·))
    (hx : l.getLast? = some x) : minInt l = x := by
  have hne : l ≠ [] := by rintro rfl; simp at hx
  rw [minInt_sorted l hne hs]
  rw [List.getLast?_eq_getLast l hne] at hx
  exact (Option.some.inj hx)

/-- C7: `find_bug_introduction` scans newest to oldest and stops at the
first version with no accepted match — versions after it never influence
the result; the introduction version is the smallest (= last, by the
newest-to-oldest ordering) version that matched before the miss, `none` if
the very first version already missed; and if every version matches, it is
the oldest loaded version. -/
theorem C7_find_bug_introduction_spec :
    (∀ (sig : BugSignature) (t : ℝ) (pre post : List FileVersion) (v : FileVersion),
      sig.is_empty = false →
      ((pre ++ v :: post).map FileVersion.version).Sorted (· > ·) →
      (∀ u ∈ pre, (find_bug_in_version u sig t).isSome) →
      find_bug_in_version v sig t = none →
      find_bug_introduction (pre ++ v :: post) sig t
          = find_bug_introduction (pre ++ [v]) sig t ∧
      (find_bug_introduction (pre ++ v :: post) sig t).1
          = (pre.getLast?).map FileVersion.version) ∧
    (∀ (sig : BugSignature) (t : ℝ) (vs : List FileVersion),
      sig.is_empty = false →
      (vs.map FileVersion.version).Sorted (· > ·) →
      (∀ u ∈ vs, (find_bug_in_version u sig t).isSome) →
      (find_bug_introduction vs sig t).1 = (vs.getLast?).map FileVersion.version) := by
  constructor
  · intro sig t pre post v _ hsort hpre hmiss
    obtain ⟨ms, hkeys, heq⟩ := fbiGo_all_matched sig t pre hpre
    have h1 : find_bug_introduction (pre ++ v :: post) sig t
        = (if ms.isEmpty then none else some (minInt (ms.map Prod.fst)), ms) := by
      unfold find_bug_introduction
      rw [heq (v :: post) [], List.nil_append, fbiGo_miss sig t v hmiss]
    have h2 : find_bug_introduction (pre ++ [v]) sig t
        = (if ms.isEmpty then none else some (minInt (ms.map Prod.fst)), ms) := by
      unfold find_bug_introduction
      rw [heq [v] [], List.nil_append, fbiGo_miss sig t v hmiss]
    refine ⟨h1.trans h2.symm, ?_⟩
    rw [h1]
    rcases eq_or_ne pre [] with rfl | hpne
    · have : ms = [] := by simpa using hkeys
      subst this
      simp
    · have hsome : (pre.getLast?).isSome := by
        rw [List.getLast?_isSome]
        exact hpne
      obtain ⟨u, hu⟩ := Option.isSome_iff_exists.mp hsome
      have hmsne : ms ≠ [] := by
        intro h
        rw [h] at hkeys
        exact hpne (by simpa using hkeys.symm)
      have hsorted_pre : (pre.map FileVersion.version).Sorted (· > ·) := by
        rw [List.map_append] at hsort
        exact (List.pairwise_append.mp hsort).1
      have hlast : (pre.map FileVersion.version).getLast? = some u.version := by
        rw [List.getLast?_map, hu]
        rfl
      have hmin : minInt (ms.map Prod.fst) = u.version := by
        rw [hkeys]
        exact minInt_getLast? (pre.map FileVersion.version) u.version hsorted_pre hlast
      rw [if_neg (by simpa [List.isEmpty_iff] using hmsne), hu, hmin]
      rfl
  · intro sig t vs _ hsort hall
    obtain ⟨ms, hkeys, heq⟩ := fbiGo_all_matched sig t vs hall
    have h1 : find_bug_introduction vs sig t
        = (if ms.isEmpty then none else some (minInt (ms.map Prod.fst)), ms) := by
      unfold find_bug_introduction
      rw [show vs = vs ++ [] from by simp, heq [] [], List.nil_append]
      rfl
    rw [h1]
    rcases eq_or_ne vs [] with rfl | hvne
    · have : ms = [] := by simpa using hkeys
      subst this
      simp
    · have hsome : (vs.getLast?).isSome := by
        rw [List.getLast?_isSome]
        exact hvne
      obtain ⟨u, hu⟩ := Option.isSome_iff_exists.mp hsome
      have hmsne : ms ≠ [] := by
        intro h
        rw [h] at hkeys
        exact hvne (by simpa using hkeys.symm)
      have hlast' : (vs.map FileVersion.version).getLast? = some u.version := by
        rw [List.getLast?_map, hu]
        rfl
      have hmin : minInt (ms.map Prod.fst) = u.version := by
        rw [hkeys]
        exact minInt_getLast? (vs.map FileVersion.version) u.version hsort hlast'
      rw [if_neg (by simpa [List.isEmpty_iff] using hmsne), hu, hmin]
      rfl

/-- C7 witness: versions `[fvM2, fvM1, fvM0]` (newest to oldest), where
`fvM2` matches `sigW` and `fvM1` misses: the scan stops at `fvM1`, ignores
`fvM0`, and reports version 2; scanning `[fvM2]` alone (all match) also
reports version 2. -/
theorem C7_find_bug_introduction_spec_witness :
    (find_bug_introduction ([fvM2] ++ fvM1 :: [fvM0]) sigW (7 / 10)
        = find_bug_introduction ([fvM2] ++ [fvM1]) sigW (7 / 10) ∧
      (find_bug_introduction ([fvM2] ++ fvM1 :: [fvM0]) sigW (7 / 10)).1
        = ([fvM2].getLast?).map FileVersion.version) ∧
    (find_bug_introduction [fvM2] sigW (7 / 10)).1
        = ([fvM2].getLast?).map FileVersion.version :=
  ⟨C7_find_bug_introduction_spec.1 sigW (7 / 10) [fvM2] [fvM0] fvM1 (by decide) (by decide)
      (by
        intro u hu
        simp only [List.mem_singleton] at hu
        subst hu
        rw [fbv_M2]
        rfl)
      fbv_M1,
   C7_find_bug_introduction_spec.2 sigW (7 / 10) [fvM2] (by decide) (by decide)
      (by
        intro u hu
        simp only [List.mem_singleton] at hu
        subst hu
        rw [fbv_M2]
        rfl)⟩

/-- The hybrid diff of two empty files is empty. -/
theorem get_diff_hybrid_empty : get_diff_hybrid [] [] (3 / 5) true = some [] := by
  unfold get_diff_hybrid
  have hd : get_diff ([] : List (List Str)) [] = some [] := by decide
  rw [hd]
  simp only [Option.map, List.map_nil]
  have hp : hybridParse [] = ([], [], []) := by decide
  simp only [hybridAssemble, hp]
  rw [show hybridUnmatched ([] : List Str).length [] = [] from by decide]
  rw [show hybridSim [] [] (3 / 5) true [] [] = [] from by
    unfold hybridSim
    rw [if_neg (by simp)]]
  decide

/-- The signature extracted from two empty versions is empty. -/
theorem extract_E : extract_bug_signature fvE0 fvE1 3 = some
    { buggy_lines := [], buggy_lines_normalized := [], line_numbers := [],
      context_before := [], context_after := [], fix_type := "unknown",
      fix_operations := [] } := by
  unfold extract_bug_signature
  have hm : fvE0.preprocessed.map (fun l => [l]) = [] := by decide
  have hm' : fvE1.preprocessed.map (fun l => [l]) = [] := by decide
  rw [hm, hm', get_diff_hybrid_empty]
  simp only [Option.map]
  decide

/-- C9: when both the fix version `F` and `F-1` load successfully and the
extracted signature is empty, `trace_single_bug` returns a `BugLineage`
(no exception): confidence `0`, `trace_complete = false`, and the
"No buggy lines identified in fix diff" message. -/
theorem C9_empty_signature_terminal (load : Int → Option FileVersion)
    (gc : Int → Option CommitInfo) (fn : Str) (F : Int) (t : ℝ) (A B : FileVersion)
    (sig : BugSignature) (hA : load F = some A) (hB : load (F - 1) = some B)
    (hsig : extract_bug_signature B A 3 = some sig) (hempty : sig.is_empty = true) :
    ∃ L, trace_single_bug load gc fn F t = Except.ok L ∧
      L.confidence = 0 ∧ L.trace_complete = false ∧
      L.error_message = some "No buggy lines identified in fix diff" := by
  unfold trace_single_bug
  simp only [hA, hB, hsig, hempty, if_true]
  exact ⟨_, rfl, rfl, rfl, rfl⟩

/-- C9 witness: a two-version loader of empty files; the fix diff of
`(fvE0, fvE1)` yields an empty signature. -/
theorem C9_empty_signature_terminal_witness :
    ∃ L, trace_single_bug loadE (fun _ => none) (chars "f") 1 (7 / 10) = Except.ok L ∧
      L.confidence = 0 ∧ L.trace_complete = false ∧
      L.error_message = some "No buggy lines identified in fix diff" :=
  C9_empty_signature_terminal loadE (fun _ => none) (chars "f") 1 (7 / 10) fvE1 fvE0 _
    (by decide) (by decide) extract_E (by decide)

/-- C6: on Scenario D (`["f()"]` gaining an appended `g()`), the extracted
signature is indeed empty, but its `fix_type` is `"modification"`, not the
claimed `"insertion_fix"` (the 0/1-based token shift turns the pure
insertion into a spurious similarity match). -/
theorem C6_scenarioD_fix_type :
    ∃ s, extract_bug_signature fvBeforeD fvAfterD 3 = some s ∧
      s.is_empty = true ∧ s.fix_type = "modification" ∧ s.fix_type ≠ "insertion_fix" :=
  ⟨_, extract_scD, by decide, by decide, by decide⟩

end LHDiff

/-! ### Myers minimality (claim C5)

The development below proves that the search loop of `get_diff` always
returns, that the returned trace has exactly `editDist old new + 1`
rounds, and that `reconstruct_from_trace` emits exactly one deletion or
insertion token per round after the first — so the token count equals the
reference insert/delete edit distance.  Soundness uses the `Reach`
relation (each frontier value is a reachable position); completeness uses
the domination invariant `DomV` (each in-grid position within the round's
distance and parity is covered by its diagonal's frontier entry). -/

namespace LHDiff

variable {α : Type} [DecidableEq α]

set_option linter.unusedSectionVars false

theorem getLast?_cons_ne_nil (c : Char) (l : Str) (h : l ≠ []) :
    (c :: l).getLast? = l.getLast? := by
  cases l with
  | nil => exact absurd rfl h
  | cons a t => rfl

theorem getLast?_append_ne_nil (l₁ l₂ : Str) (h : l₂ ≠ []) :
    (l₁ ++ l₂).getLast? = l₂.getLast? := by
  induction l₁ with
  | nil => rfl
  | cons a t ih =>
    rw [List.cons_append, getLast?_cons_ne_nil _ _ (by simp [h]), ih]

theorem natCharsAux_cons_ne_nil : ∀ (fuel n : Nat) (c : Char) (acc : Str),
    natCharsAux fuel n (c :: acc) ≠ [] := by
  intro fuel
  induction fuel with
  | zero => intro n c acc; simp [natCharsAux]
  | succ f ih =>
    intro n c acc
    simp only [natCharsAux]
    split
    · simp
    · exact ih _ _ _

theorem natChars_ne_nil (n : Nat) : natChars n ≠ [] := by
  unfold natChars
  simp only [natCharsAux]
  split
  · simp
  · exact natCharsAux_cons_ne_nil _ _ _ _

theorem intChars_ne_nil (i : Int) : intChars i ≠ [] := by
  unfold intChars
  split
  · simp
  · exact natChars_ne_nil _

theorem natCharsAux_getLast? : ∀ (fuel n : Nat) (acc : Str), acc ≠ [] →
    (natCharsAux fuel n acc).getLast? = acc.getLast? := by
  intro fuel
  induction fuel with
  | zero => intro n acc _; rfl
  | succ f ih =>
    intro n acc h
    simp only [natCharsAux]
    split
    · exact getLast?_cons_ne_nil _ _ h
    · rw [ih _ _ (by simp), getLast?_cons_ne_nil _ _ h]

theorem natChars_getLast? (n : Nat) :
    (natChars n).getLast? = some (Char.ofNat (48 + n % 10)) := by
  unfold natChars
  simp only [natCharsAux]
  split
  · rfl
  · rw [natCharsAux_getLast? _ _ _ (by simp)]; rfl

theorem digit_ne (r : Nat) (h : r < 10) :
    Char.ofNat (48 + r) ≠ '+' ∧ Char.ofNat (48 + r) ≠ '-' := by
  interval_cases r <;> exact ⟨by decide, by decide⟩

theorem intChars_getLast?_digit (i : Int) : ∃ c : Char,
    (intChars i).getLast? = some c ∧ c ≠ '+' ∧ c ≠ '-' := by
  unfold intChars
  split
  · rw [getLast?_cons_ne_nil _ _ (natChars_ne_nil _), natChars_getLast?]
    exact ⟨_, rfl, digit_ne _ (Nat.mod_lt _ (by norm_num))⟩
  · rw [natChars_getLast?]
    exact ⟨_, rfl, digit_ne _ (Nat.mod_lt _ (by norm_num))⟩

theorem isEditTok_mkMatch (i j : Int) : isEditTok (mkMatch i j) = false := by
  obtain ⟨c, hc, hp, hm⟩ := intChars_getLast?_digit j
  unfold isEditTok mkMatch
  rw [getLast?_append_ne_nil _ _ (by simp),
    getLast?_cons_ne_nil _ _ (intChars_ne_nil j), hc]
  simp [hp, hm]

theorem isEditTok_mkIns (i : Int) : isEditTok (mkIns i) = true := by
  unfold isEditTok mkIns
  rw [List.getLast?_concat]
  simp

theorem isEditTok_mkDel (i : Int) : isEditTok (mkDel i) = true := by
  unfold isEditTok mkDel
  rw [List.getLast?_concat]
  simp

theorem editTokCount_cons (t : Str) (l : List Str) :
    editTokCount (t :: l) = (if isEditTok t then 1 else 0) + editTokCount l := by
  unfold editTokCount
  rw [List.filter_cons]
  split <;> simp [Nat.add_comm]

theorem editTokCount_snakeBack (xp yp : Int) : ∀ (fuel : Nat) (x y : Int) (acc : List Str),
    editTokCount (snakeBack xp yp fuel x y acc).2.2 = editTokCount acc := by
  intro fuel
  induction fuel with
  | zero => intro x y acc; rfl
  | succ f ih =>
    intro x y acc
    simp only [snakeBack]
    split
    · rw [ih, editTokCount_cons, isEditTok_mkMatch]; simp
    · rfl

theorem editTokCount_reconstructAux (trace : List (List (Int × Int))) :
    ∀ (D : Nat) (x y : Int) (acc : List Str),
    editTokCount (reconstructAux trace D x y acc) = D + editTokCount acc := by
  intro D
  induction D with
  | zero =>
    intro x y acc
    unfold reconstructAux
    rw [editTokCount_snakeBack]
    omega
  | succ D ih =>
    intro x y acc
    simp only [reconstructAux]
    split
    · rw [ih, editTokCount_cons, isEditTok_mkIns, editTokCount_snakeBack]
      simp; omega
    · rw [ih, editTokCount_cons, isEditTok_mkDel, editTokCount_snakeBack]
      simp; omega

theorem editTokCount_reconstruct (a b : List α) (trace : List (List (Int × Int))) :
    editTokCount (reconstruct_from_trace a b trace) = trace.length - 1 := by
  unfold reconstruct_from_trace
  rw [editTokCount_reconstructAux]
  simp [editTokCount]

theorem dpDist_zero_left (a b : List α) (y : Nat) : dpDist a b 0 y = y := by
  cases y <;> simp [dpDist]

theorem dpDist_zero_right (a b : List α) (x : Nat) : dpDist a b x 0 = x := by
  cases x <;> simp [dpDist]

theorem dpDist_succ_succ (a b : List α) (x y : Nat) :
    dpDist a b (x + 1) (y + 1) =
      if a.get? x = b.get? y then dpDist a b x y
      else 1 + min (dpDist a b (x + 1) y) (dpDist a b x (y + 1)) := by
  rw [dpDist]

theorem dpDist_lip (a b : List α) : ∀ (s x y : Nat), x + y ≤ s →
    dpDist a b (x + 1) y ≤ dpDist a b x y + 1 ∧
    dpDist a b x y ≤ dpDist a b (x + 1) y + 1 ∧
    dpDist a b x (y + 1) ≤ dpDist a b x y + 1 ∧
    dpDist a b x y ≤ dpDist a b x (y + 1) + 1 := by
  intro s
  induction s with
  | zero =>
    intro x y h
    obtain ⟨rfl, rfl⟩ : x = 0 ∧ y = 0 := by omega
    simp [dpDist_zero_left, dpDist_zero_right]
  | succ s ih =>
    intro x y h
    cases x with
    | zero =>
      cases y with
      | zero => simp [dpDist_zero_left, dpDist_zero_right]
      | succ y =>
        obtain ⟨-, ih2, -, -⟩ := ih 0 y (by omega)
        simp only [dpDist_zero_left] at ih2
        refine ⟨?_, ?_, ?_, ?_⟩
        · rw [dpDist_succ_succ]
          simp only [dpDist_zero_left]
          split <;> omega
        · rw [dpDist_succ_succ]
          simp only [dpDist_zero_left]
          split <;> omega
        · simp only [dpDist_zero_left]; omega
        · simp only [dpDist_zero_left]; omega
    | succ x =>
      cases y with
      | zero =>
        obtain ⟨-, -, -, ih4⟩ := ih x 0 (by omega)
        simp only [dpDist_zero_right] at ih4
        refine ⟨?_, ?_, ?_, ?_⟩
        · simp only [dpDist_zero_right]; omega
        · simp only [dpDist_zero_right]; omega
        · rw [dpDist_succ_succ]
          simp only [dpDist_zero_right]
          split <;> omega
        · rw [dpDist_succ_succ]
          simp only [dpDist_zero_right]
          split <;> omega
      | succ y =>
        obtain ⟨-, ihx2, ihx3, ihx4⟩ := ih (x + 1) y (by omega)
        obtain ⟨ihy1, ihy2, -, ihy4⟩ := ih x (y + 1) (by omega)
        refine ⟨?_, ?_, ?_, ?_⟩
        · rw [dpDist_succ_succ a b (x + 1) y]
          split
          · omega
          · omega
        · rw [dpDist_succ_succ a b (x + 1) y]
          split
          · omega
          · omega
        · rw [dpDist_succ_succ a b x (y + 1)]
          split
          · omega
          · omega
        · rw [dpDist_succ_succ a b x (y + 1)]
          split
          · omega
          · omega

theorem dpDist_le_sum (a b : List α) : ∀ (s x y : Nat), x + y ≤ s →
    dpDist a b x y ≤ x + y := by
  intro s
  induction s with
  | zero =>
    intro x y h
    obtain ⟨rfl, rfl⟩ : x = 0 ∧ y = 0 := by omega
    simp [dpDist_zero_left]
  | succ s ih =>
    intro x y h
    cases x with
    | zero => rw [dpDist_zero_left]; omega
    | succ x =>
      cases y with
      | zero => rw [dpDist_zero_right]
      | succ y =>
        have ih1 := ih x y (by omega)
        have ih2 := ih (x + 1) y (by omega)
        rw [dpDist_succ_succ]
        split
        · omega
        · omega

theorem dpDist_diag_le (a b : List α) : ∀ (s x y : Nat), x + y ≤ s →
    x ≤ y + dpDist a b x y ∧ y ≤ x + dpDist a b x y := by
  intro s
  induction s with
  | zero =>
    intro x y h
    obtain ⟨rfl, rfl⟩ : x = 0 ∧ y = 0 := by omega
    simp
  | succ s ih =>
    intro x y h
    cases x with
    | zero => rw [dpDist_zero_left]; omega
    | succ x =>
      cases y with
      | zero => rw [dpDist_zero_right]; omega
      | succ y =>
        have ih1 := ih x y (by omega)
        have ih2 := ih (x + 1) y (by omega)
        have ih3 := ih x (y + 1) (by omega)
        rw [dpDist_succ_succ]
        split
        · omega
        · omega

theorem dpDist_parity (a b : List α) : ∀ (s x y : Nat), x + y ≤ s →
    dpDist a b x y % 2 = (x + y) % 2 := by
  intro s
  induction s with
  | zero =>
    intro x y h
    obtain ⟨rfl, rfl⟩ : x = 0 ∧ y = 0 := by omega
    simp [dpDist_zero_left]
  | succ s ih =>
    intro x y h
    cases x with
    | zero => rw [dpDist_zero_left]; omega
    | succ x =>
      cases y with
      | zero => rw [dpDist_zero_right]
      | succ y =>
        have ih1 := ih x y (by omega)
        have ih2 := ih (x + 1) y (by omega)
        have ih3 := ih x (y + 1) (by omega)
        rw [dpDist_succ_succ]
        split
        · omega
        · omega

theorem Reach_nonneg {a b : List α} {d : Nat} {x y : Int} (h : Reach a b d x y) :
    0 ≤ x ∧ 0 ≤ y := by
  induction h with
  | start => exact ⟨le_refl 0, le_refl 0⟩
  | diag h hx hxa hy hyb heq ih => omega
  | del h ih => omega
  | ins h ih => omega

theorem Reach_dp_bound {a b : List α} {d : Nat} {x y : Int} (h : Reach a b d x y) :
    dpDist a b (min x.toNat a.length) (min y.toNat b.length)
      + (x.toNat - a.length) + (y.toNat - b.length) ≤ d := by
  induction h with
  | start => simp [dpDist_zero_left]
  | diag h hx hxa hy hyb heq ih =>
    clear x y d
    rename_i d x y
    have h1 : (x + 1).toNat = x.toNat + 1 := by omega
    have h2 : (y + 1).toNat = y.toNat + 1 := by omega
    have h3 : x.toNat < a.length := by omega
    have h4 : y.toNat < b.length := by omega
    rw [h1, h2, min_eq_left (by omega), min_eq_left (by omega),
      dpDist_succ_succ, if_pos heq]
    rw [min_eq_left (by omega), min_eq_left (by omega)] at ih
    omega
  | del h ih =>
    clear x y d
    rename_i d x y
    obtain ⟨hx0, hy0⟩ := Reach_nonneg h
    have h1 : (x + 1).toNat = x.toNat + 1 := by omega
    rw [h1]
    rcases lt_or_le x.toNat a.length with hlt | hge
    · have lip := (dpDist_lip a b (x.toNat + min y.toNat b.length) x.toNat
        (min y.toNat b.length) (le_refl _)).1
      rw [min_eq_left (by omega)]
      rw [min_eq_left (by omega)] at ih
      omega
    · rw [min_eq_right (by omega)]
      rw [min_eq_right (by omega)] at ih
      omega
  | ins h ih =>
    clear x y d
    rename_i d x y
    obtain ⟨hx0, hy0⟩ := Reach_nonneg h
    have h1 : (y + 1).toNat = y.toNat + 1 := by omega
    rw [h1]
    rcases lt_or_le y.toNat b.length with hlt | hge
    · have lip := (dpDist_lip a b (min x.toNat a.length + y.toNat)
        (min x.toNat a.length) y.toNat (le_refl _)).2.2.1
      have hm1 : min (y.toNat + 1) b.length = y.toNat + 1 := min_eq_left (by omega)
      have hm2 : min y.toNat b.length = y.toNat := min_eq_left (by omega)
      rw [hm1]
      rw [hm2] at ih
      omega
    · have hm1 : min (y.toNat + 1) b.length = b.length := min_eq_right (by omega)
      have hm2 : min y.toNat b.length = b.length := min_eq_right (by omega)
      rw [hm1]
      rw [hm2] at ih
      omega

theorem Reach_editDist {a b : List α} {d : Nat} {x y : Int} (h : Reach a b d x y)
    (hx : (a.length : Int) ≤ x) (hy : (b.length : Int) ≤ y) : editDist a b ≤ d := by
  have hb := Reach_dp_bound h
  obtain ⟨hx0, hy0⟩ := Reach_nonneg h
  rw [min_eq_right (by omega), min_eq_right (by omega)] at hb
  unfold editDist
  omega

theorem Reach_origin_col (a b : List α) (j : Nat) : Reach a b j 0 (j : Int) := by
  induction j with
  | zero => exact .start
  | succ j ih =>
    have h := Reach.ins ih
    have e : ((j : Int) + 1) = ((j + 1 : Nat) : Int) := by omega
    rwa [e] at h

theorem Reach_col_then_del (a b : List α) (j : Nat) : Reach a b (j + 1) 1 (j : Int) := by
  have h := Reach.del (Reach_origin_col a b j)
  simpa using h

theorem snakeFwd_lower (a b : List α) : ∀ (fuel : Nat) (x y : Int),
    x ≤ (snakeFwd a b fuel x y).1 ∧
    (snakeFwd a b fuel x y).1 - (snakeFwd a b fuel x y).2 = x - y := by
  intro fuel
  induction fuel with
  | zero => intro x y; exact ⟨le_refl x, rfl⟩
  | succ f ih =>
    intro x y
    rw [snakeFwd]
    split
    · obtain ⟨h1, h2⟩ := ih (x + 1) (y + 1)
      exact ⟨by omega, by omega⟩
    · exact ⟨le_refl x, rfl⟩

theorem snakeFwd_reach (a b : List α) : ∀ (fuel d : Nat) (x y : Int),
    Reach a b d x y →
    Reach a b d (snakeFwd a b fuel x y).1 (snakeFwd a b fuel x y).2 := by
  intro fuel
  induction fuel with
  | zero => intro d x y h; exact h
  | succ f ih =>
    intro d x y h
    rw [snakeFwd]
    split
    · rename_i hc
      obtain ⟨hx0, hy0⟩ := Reach_nonneg h
      have heq : a.get? x.toNat = b.get? y.toNat := by
        have h3 := hc.2.2
        simpa [pyGet, hx0, hy0] using h3
      exact ih _ _ _ (Reach.diag h hx0 hc.1 hy0 hc.2.1 heq)
    · exact h

theorem snakeFwd_cover (a b : List α) (x0 y0 x : Nat)
    (hx0 : x0 ≤ x) (hxa : x ≤ a.length) (hyb : y0 + (x - x0) ≤ b.length)
    (hrun : ∀ i : Nat, x0 ≤ i → i < x → a.get? i = b.get? (y0 + (i - x0))) :
    ∀ (fuel : Nat) (x' y' : Int), (x0 : Int) ≤ x' → x' - y' = (x0 : Int) - (y0 : Int) →
      (x : Int) ≤ x' + fuel → (x : Int) ≤ (snakeFwd a b fuel x' y').1 := by
  intro fuel
  induction fuel with
  | zero =>
    intro x' y' h1 h2 h3
    rw [snakeFwd]
    simp only
    omega
  | succ f ih =>
    intro x' y' h1 h2 h3
    rcases le_or_lt (x : Int) x' with hge | hlt
    · exact le_trans hge (snakeFwd_lower a b (f + 1) x' y').1
    · have hx'n : x' < (a.length : Int) := by omega
      have hy'm : y' < (b.length : Int) := by omega
      have hge0 : 0 ≤ x' := by omega
      have hy0' : 0 ≤ y' := by omega
      have heq : pyGet a x' = pyGet b y' := by
        have e1 : pyGet a x' = a.get? x'.toNat := by simp [pyGet, hge0]
        have e2 : pyGet b y' = b.get? y'.toNat := by simp [pyGet, hy0']
        have e3 : y'.toNat = y0 + (x'.toNat - x0) := by omega
        rw [e1, e2, e3]
        exact hrun x'.toNat (by omega) (by omega)
      rw [snakeFwd, if_pos ⟨hx'n, hy'm, heq⟩]
      exact ih (x' + 1) (y' + 1) (by omega) (by omega) (by omega)

theorem dpDist_snakeStart (a b : List α) : ∀ (x y : Nat),
    ∃ x0 y0 : Nat, x0 ≤ x ∧ y0 ≤ y ∧ x - x0 = y - y0 ∧
      dpDist a b x0 y0 = dpDist a b x y ∧
      (x0 = 0 ∨ y0 = 0 ∨ ¬ (a.get? (x0 - 1) = b.get? (y0 - 1))) ∧
      ∀ i : Nat, x0 ≤ i → i < x → a.get? i = b.get? (y0 + (i - x0)) := by
  intro x
  induction x with
  | zero =>
    intro y
    exact ⟨0, y, le_refl 0, le_refl y, by omega, rfl, Or.inl rfl,
      fun i h1 h2 => absurd h2 (by omega)⟩
  | succ x ih =>
    intro y
    cases y with
    | zero =>
      exact ⟨x + 1, 0, le_refl _, le_refl _, by omega, rfl, Or.inr (Or.inl rfl),
        fun i h1 h2 => absurd h2 (by omega)⟩
    | succ y =>
      by_cases heq : a.get? x = b.get? y
      · obtain ⟨x0, y0, hx0, hy0, hdiff, hdp, hbd, hrun⟩ := ih y
        refine ⟨x0, y0, by omega, by omega, by omega, ?_, hbd, ?_⟩
        · rw [hdp, dpDist_succ_succ, if_pos heq]
        · intro i h1 h2
          rcases lt_or_le i x with hix | hix
          · exact hrun i h1 hix
          · have hi : i = x := by omega
            subst hi
            have e : y0 + (i - x0) = y := by omega
            rw [e]
            exact heq
      · refine ⟨x + 1, y + 1, le_refl _, le_refl _, by omega, rfl,
          Or.inr (Or.inr (by simpa using heq)),
          fun i h1 h2 => absurd h2 (by omega)⟩

theorem dGet_vLookup (f : List (Int × Int)) (k dflt : Int) :
    dGet f k dflt = (vLookup f k).getD dflt := by
  unfold dGet vLookup
  cases f.find? (fun p => p.1 == k) <;> simp

theorem vLookup_cons (k0 v0 : Int) (V : List (Int × Int)) (k : Int) :
    vLookup ((k0, v0) :: V) k = if k0 = k then some v0 else vLookup V k := by
  unfold vLookup
  by_cases h : k0 = k
  · simp [List.find?, h]
  · have hb : (k0 == k) = false := by simpa using h
    simp [List.find?, hb, h]

theorem vLookup_mem {V : List (Int × Int)} {k v : Int}
    (h : vLookup V k = some v) : (k, v) ∈ V := by
  unfold vLookup at h
  cases hf : V.find? (fun p => p.1 == k) with
  | none => rw [hf] at h; exact absurd h (by simp)
  | some p =>
    rw [hf] at h
    have hm := List.mem_of_find?_eq_some hf
    have hk := List.find?_some hf
    simp at hk h
    have : p = (k, v) := by
      cases p
      simp_all
    rwa [this] at hm

theorem dGet_nonneg_of_NonnegV {V : List (Int × Int)} (h : NonnegV V) (j dflt : Int)
    (hd : 0 ≤ dflt) : 0 ≤ dGet V j dflt := by
  rw [dGet_vLookup]
  cases hf : vLookup V j with
  | none => exact hd
  | some v => exact h _ (vLookup_mem hf)

theorem kList_mem_iff (D : Nat) (k : Int) :
    k ∈ kList D ↔ (-(D : Int) ≤ k ∧ k ≤ D ∧ (k + D) % 2 = 0) := by
  unfold kList
  simp only [List.mem_map, List.mem_range]
  constructor
  · rintro ⟨i, hi, rfl⟩
    refine ⟨by omega, by omega, by omega⟩
  · rintro ⟨h1, h2, h3⟩
    exact ⟨(k + D).toNat / 2, by omega, by omega⟩

theorem kList_nodup (D : Nat) : (kList D).Nodup := by
  unfold kList
  have hinj : Function.Injective (fun i : Nat => -(D : Int) + 2 * (i : Int)) := by
    intro i j hij
    simp only at hij
    omega
  exact (List.nodup_range (D + 1)).map hinj

/-- Start-position soundness: whatever value the Python tie-break computes
for diagonal `k` in round `D` is a reachable position (when its `y` is
nonnegative, i.e. when the iteration is not skipped). -/
theorem kstep_sound (a b : List α) (frontier : List (Int × Int)) (D : Nat) (k : Int)
    (hD0 : D = 0 → frontier = [(1, 0)])
    (hfs : 1 ≤ D → FrontSound a b (D - 1) frontier)
    (hk1 : -(D : Int) ≤ k) (hk2 : k ≤ D) (hk3 : (k + D) % 2 = 0)
    (x0 : Int)
    (hbr : x0 = if (k = -(D : Int) ∨ (k ≠ (D : Int) ∧
        dGet frontier (k - 1) (-1) < dGet frontier (k + 1) 0))
      then dGet frontier (k + 1) 0 else dGet frontier (k - 1) 0 + 1)
    (hy0 : 0 ≤ x0 - k) :
    ∃ d ≤ D, Reach a b d x0 (x0 - k) := by
  by_cases hc : (k = -(D : Int) ∨ (k ≠ (D : Int) ∧
      dGet frontier (k - 1) (-1) < dGet frontier (k + 1) 0))
  · rw [if_pos hc] at hbr
    rcases Nat.eq_zero_or_pos D with hD | hD
    · subst hD
      rw [hD0 rfl] at hbr
      have hk0 : k = 0 := by omega
      subst hk0
      have : dGet [((1 : Int), (0 : Int))] (0 + 1) 0 = 0 := by decide
      rw [this] at hbr
      subst hbr
      exact ⟨0, le_refl 0, by simpa using Reach.start⟩
    · rw [dGet_vLookup] at hbr
      cases hv : vLookup frontier (k + 1) with
      | none =>
        rw [hv] at hbr
        simp at hbr
        subst hbr
        refine ⟨(-k).toNat, by omega, ?_⟩
        have h := Reach_origin_col a b (-k).toNat
        have e : (((-k).toNat : Nat) : Int) = 0 - k := by omega
        rwa [e] at h
      | some w =>
        rw [hv] at hbr
        simp at hbr
        rw [hbr]
        obtain ⟨hw0, hw⟩ := hfs hD _ _ hv
        rw [hbr] at hy0
        rcases hw with hw | ⟨d, hd, hr⟩
        · subst hw
          refine ⟨(-k).toNat, by omega, ?_⟩
          have h := Reach_origin_col a b (-k).toNat
          have e : (((-k).toNat : Nat) : Int) = 0 - k := by omega
          rwa [e] at h
        · refine ⟨d + 1, by omega, ?_⟩
          have h := Reach.ins hr
          have e : w - (k + 1) + 1 = w - k := by omega
          rwa [e] at h
  · rw [if_neg hc] at hbr
    push_neg at hc
    obtain ⟨hne, _⟩ := hc
    have hk4 : -(D : Int) + 2 ≤ k := by omega
    have hD : 1 ≤ D := by omega
    rw [dGet_vLookup] at hbr
    cases hv : vLookup frontier (k - 1) with
    | none =>
      rw [hv] at hbr
      simp at hbr
      subst hbr
      refine ⟨(1 - k).toNat + 1, by omega, ?_⟩
      have h := Reach_col_then_del a b (1 - k).toNat
      have e : (((1 - k).toNat : Nat) : Int) = 1 - k := by omega
      rwa [e] at h
    | some w =>
      rw [hv] at hbr
      simp at hbr
      rw [hbr]
      obtain ⟨hw0, hw⟩ := hfs hD _ _ hv
      rw [hbr] at hy0
      rcases hw with hw | ⟨d, hd, hr⟩
      · subst hw
        refine ⟨(1 - k).toNat + 1, by omega, ?_⟩
        have h := Reach_col_then_del a b (1 - k).toNat
        have e : (((1 - k).toNat : Nat) : Int) = 1 - k := by omega
        rwa [e] at h
      · refine ⟨d + 1, by omega, ?_⟩
        have h := Reach.del hr
        have e : w - (k - 1) = w + 1 - k := by omega
        rwa [e] at h

theorem tiebreak_ge_left (frontier : List (Int × Int)) (D : Nat) (k x0 t v : Int)
    (hbr : x0 = if (k = -(D : Int) ∨ (k ≠ (D : Int) ∧
        dGet frontier (k - 1) (-1) < dGet frontier (k + 1) 0))
      then dGet frontier (k + 1) 0 else dGet frontier (k - 1) 0 + 1)
    (hv : vLookup frontier (k - 1) = some v) (htv : t ≤ v)
    (hknd : k ≠ -(D : Int)) :
    t + 1 ≤ x0 := by
  have e1 : dGet frontier (k - 1) (-1) = v := by rw [dGet_vLookup, hv]; rfl
  have e0 : dGet frontier (k - 1) 0 = v := by rw [dGet_vLookup, hv]; rfl
  rw [hbr]
  split
  · rename_i hc
    rcases hc with hc | ⟨-, hlt⟩
    · exact absurd hc hknd
    · rw [e1] at hlt
      omega
  · rw [e0]
    omega

theorem tiebreak_ge_up (frontier : List (Int × Int)) (D : Nat) (k x0 s w : Int)
    (hbr : x0 = if (k = -(D : Int) ∨ (k ≠ (D : Int) ∧
        dGet frontier (k - 1) (-1) < dGet frontier (k + 1) 0))
      then dGet frontier (k + 1) 0 else dGet frontier (k - 1) 0 + 1)
    (hw : vLookup frontier (k + 1) = some w) (hsw : s ≤ w)
    (hknd : k ≠ (D : Int)) (hs1 : 1 ≤ s) :
    s ≤ x0 := by
  have e1 : dGet frontier (k + 1) 0 = w := by rw [dGet_vLookup, hw]; rfl
  rw [hbr]
  split
  · rw [e1]
    omega
  · rename_i hc
    push_neg at hc
    obtain ⟨-, hc2⟩ := hc
    have hge := hc2 hknd
    rw [e1] at hge
    cases hu : vLookup frontier (k - 1) with
    | none =>
      rw [dGet_vLookup, hu] at hge
      simp at hge
      omega
    | some u =>
      rw [dGet_vLookup, hu] at hge
      simp at hge
      have e0 : dGet frontier (k - 1) 0 = u := by rw [dGet_vLookup, hu]; rfl
      rw [e0]
      omega

/-- Domination of the computed start: every in-grid position of diagonal
`k` within distance `D` (with matching parity) makes the skip test fail
and is covered by the snake from the tie-break's start position. -/
theorem kstep_dom (a b : List α) (frontier : List (Int × Int)) (D : Nat) (k : Int)
    (hdom : 1 ≤ D → DomV a b (D - 1) frontier)
    (hnnf : NonnegV frontier)
    (x0 : Int)
    (hbr : x0 = if (k = -(D : Int) ∨ (k ≠ (D : Int) ∧
        dGet frontier (k - 1) (-1) < dGet frontier (k + 1) 0))
      then dGet frontier (k + 1) 0 else dGet frontier (k - 1) 0 + 1)
    (x y : Nat) (hx : x ≤ a.length) (hy : y ≤ b.length)
    (hk : (x : Int) - y = k) (hdp : dpDist a b x y ≤ D)
    (hpar : (x + y + D) % 2 = 0) :
    0 ≤ x0 - k ∧ (x : Int) ≤ (snakeFwd a b (a.length + b.length + 1) x0 (x0 - k)).1 := by
  obtain ⟨x0s, y0s, hsx, hsy, hsd, hsdp, hsb, hsrun⟩ := dpDist_snakeStart a b x y
  have hks : (x0s : Int) - y0s = k := by omega
  have hmain : (x0s : Int) ≤ x0 := by
    rcases Nat.eq_zero_or_pos x0s with h0 | hpos
    · rw [h0, hbr]
      split
      · have h1 := dGet_nonneg_of_NonnegV hnnf (k + 1) 0 le_rfl
        omega
      · have h1 := dGet_nonneg_of_NonnegV hnnf (k - 1) 0 le_rfl
        omega
    · by_cases hy0z : y0s = 0
      · -- predecessor to the left of (x0s, 0)
        have hdpv : dpDist a b x0s y0s = x0s := by rw [hy0z, dpDist_zero_right]
        have hD1 : 1 ≤ D := by omega
        have hpred : dpDist a b (x0s - 1) y0s ≤ D - 1 := by
          rw [hy0z, dpDist_zero_right]
          omega
        obtain ⟨v, hv, hvge⟩ := hdom hD1 (x0s - 1) y0s (by omega) (by omega) hpred
          (by omega)
        have hkey : ((x0s - 1 : Nat) : Int) - (y0s : Int) = k - 1 := by omega
        rw [hkey] at hv
        have hknd : k ≠ -(D : Int) := by omega
        have := tiebreak_ge_left frontier D k x0 ((x0s : Int) - 1) v hbr hv
          (by omega) hknd
        omega
      · -- an interior snake start: mismatch above-left
        obtain ⟨ys, rfl⟩ : ∃ ys, y0s = ys + 1 := ⟨y0s - 1, by omega⟩
        obtain ⟨xs, rfl⟩ : ∃ xs, x0s = xs + 1 := ⟨x0s - 1, by omega⟩
        have hne : ¬(a.get? xs = b.get? ys) := by
          rcases hsb with h | h | h
          · omega
          · omega
          · simpa using h
        have heq : dpDist a b (xs + 1) (ys + 1) =
            1 + min (dpDist a b (xs + 1) ys) (dpDist a b xs (ys + 1)) := by
          rw [dpDist_succ_succ, if_neg hne]
        have hD1 : 1 ≤ D := by omega
        have hparp : ((xs + 1) + ys + (D - 1)) % 2 = 0 ∧
            (xs + (ys + 1) + (D - 1)) % 2 = 0 := by omega
        rcases le_or_lt (dpDist a b (xs + 1) ys) (dpDist a b xs (ys + 1)) with hAB | hAB
        · -- up predecessor (xs + 1, ys), diagonal k + 1
          have hpredU : dpDist a b (xs + 1) ys ≤ D - 1 := by omega
          obtain ⟨w, hw, hwge⟩ := hdom hD1 (xs + 1) ys (by omega) (by omega) hpredU
            hparp.1
          have hkey : ((xs + 1 : Nat) : Int) - (ys : Int) = k + 1 := by omega
          rw [hkey] at hw
          have hdg := (dpDist_diag_le a b ((xs + 1) + ys) (xs + 1) ys le_rfl).1
          have hknd : k ≠ (D : Int) := by omega
          have := tiebreak_ge_up frontier D k x0 ((xs : Int) + 1) w hbr hw
            (by omega) hknd (by omega)
          omega
        · -- left predecessor (xs, ys + 1), diagonal k - 1
          have hpredL : dpDist a b xs (ys + 1) ≤ D - 1 := by omega
          obtain ⟨v, hv, hvge⟩ := hdom hD1 xs (ys + 1) (by omega) (by omega) hpredL
            hparp.2
          have hkey : ((xs : Nat) : Int) - ((ys + 1 : Nat) : Int) = k - 1 := by omega
          rw [hkey] at hv
          have hdg := (dpDist_diag_le a b (xs + (ys + 1)) xs (ys + 1) le_rfl).2
          have hknd : k ≠ -(D : Int) := by omega
          have := tiebreak_ge_left frontier D k x0 ((xs : Int)) v hbr hv
            (by omega) hknd
          omega
  refine ⟨by omega, ?_⟩
  exact snakeFwd_cover a b x0s y0s x hsx hx (by omega) hsrun
    (a.length + b.length + 1) x0 (x0 - k) hmain (by omega) (by omega)

/-- Full specification of one round of the forward search: if the round
falls through (`inl`), the new dictionary keeps the invariants, preserves
untouched diagonals and dominates every processed diagonal; if it returns
early (`inr`), the edit distance is at most `D`. -/
theorem roundGo_spec (a b : List α) (frontier : List (Int × Int)) (D : Nat)
    (hD0 : D = 0 → frontier = [(1, 0)])
    (hfs : 1 ≤ D → FrontSound a b (D - 1) frontier)
    (hdom : 1 ≤ D → DomV a b (D - 1) frontier)
    (hnnf : NonnegV frontier) :
    ∀ (ks : List Int) (V0 : List (Int × Int)),
    (∀ k ∈ ks, -(D : Int) ≤ k ∧ k ≤ (D : Int) ∧ (k + D) % 2 = 0) →
    ks.Nodup →
    SoundV a b D V0 → NonnegV V0 → NoTermV a b V0 →
    (∀ V, roundGo a b frontier D ks V0 = .inl V →
      SoundV a b D V ∧ NonnegV V ∧ NoTermV a b V ∧
      (∀ k, k ∉ ks → vLookup V k = vLookup V0 k) ∧
      (∀ k ∈ ks, GoodK a b D V k)) ∧
    (∀ V, roundGo a b frontier D ks V0 = .inr V → editDist a b ≤ D) := by
  intro ks
  induction ks with
  | nil =>
    intro V0 hks hnd hs hnn hnt
    constructor
    · intro V hV
      simp only [roundGo] at hV
      cases hV
      exact ⟨hs, hnn, hnt, fun k _ => rfl, fun k hk => absurd hk (by simp)⟩
    · intro V hV
      simp only [roundGo] at hV
      exact absurd hV (by simp)
  | cons k ks ih =>
    intro V0 hks hnd hs hnn hnt
    obtain ⟨hk1, hk2, hk3⟩ := hks k (by simp)
    simp only [roundGo]
    set x0 : Int := (if k = -(D : Int) ∨ (k ≠ (D : Int) ∧
        dGet frontier (k - 1) (-1) < dGet frontier (k + 1) 0)
      then dGet frontier (k + 1) 0 else dGet frontier (k - 1) 0 + 1) with hx0def
    by_cases hskip : x0 - k < 0
    · rw [if_pos hskip]
      obtain ⟨IH1, IH2⟩ := ih V0 (fun k' hk' => hks k' (by simp [hk']))
        hnd.of_cons hs hnn hnt
      constructor
      · intro V hV
        obtain ⟨hS, hN, hT, hP, hG⟩ := IH1 V hV
        refine ⟨hS, hN, hT, ?_, ?_⟩
        · intro k' hk'
          exact hP k' (fun h => hk' (by simp [h]))
        · intro k' hk'
          rcases List.mem_cons.mp hk' with rfl | hmem
          · intro x y hx hy hkxy hdp hpar
            exfalso
            have hd := (kstep_dom a b frontier D k' hdom hnnf x0 hx0def
              x y hx hy hkxy hdp hpar).1
            omega
          · exact hG k' hmem
      · intro V hV
        exact IH2 V hV
    · rw [if_neg hskip]
      set p : Int × Int := snakeFwd a b (a.length + b.length + 1) x0 (x0 - k)
        with hpdef
      have hx0nn : 0 ≤ x0 := by
        rw [hx0def]
        split
        · exact dGet_nonneg_of_NonnegV hnnf _ _ le_rfl
        · have h1 := dGet_nonneg_of_NonnegV hnnf (k - 1) 0 le_rfl
          omega
      obtain ⟨d, hdD, hreach⟩ := kstep_sound a b frontier D k hD0 hfs hk1 hk2 hk3
        x0 hx0def (by omega)
      have hple : x0 ≤ p.1 := by
        rw [hpdef]
        exact (snakeFwd_lower a b (a.length + b.length + 1) x0 (x0 - k)).1
      have hpk : p.2 = p.1 - k := by
        rw [hpdef]
        have h2 := (snakeFwd_lower a b (a.length + b.length + 1) x0 (x0 - k)).2
        omega
      have hpreach : Reach a b d p.1 p.2 := by
        rw [hpdef]
        exact snakeFwd_reach a b (a.length + b.length + 1) d x0 (x0 - k) hreach
      by_cases hterm : (a.length : Int) ≤ p.1 ∧ (b.length : Int) ≤ p.2
      · rw [if_pos hterm]
        constructor
        · intro V hV
          exact absurd hV (by simp)
        · intro V hV
          exact le_trans (Reach_editDist hpreach hterm.1 hterm.2) hdD
      · rw [if_neg hterm]
        have hS1 : SoundV a b D ((k, p.1) :: V0) := by
          intro q hq
          rcases List.mem_cons.mp hq with rfl | hq'
          · refine ⟨d, hdD, ?_⟩
            show Reach a b d p.1 (p.1 - k)
            rw [← hpk]
            exact hpreach
          · exact hs q hq'
        have hN1 : NonnegV ((k, p.1) :: V0) := by
          intro q hq
          rcases List.mem_cons.mp hq with rfl | hq'
          · exact le_trans hx0nn hple
          · exact hnn q hq'
        have hT1 : NoTermV a b ((k, p.1) :: V0) := by
          intro q hq
          rcases List.mem_cons.mp hq with rfl | hq'
          · show ¬((a.length : Int) ≤ p.1 ∧ (b.length : Int) ≤ p.1 - k)
            rw [← hpk]
            exact hterm
          · exact hnt q hq'
        obtain ⟨IH1, IH2⟩ := ih ((k, p.1) :: V0)
          (fun k' hk' => hks k' (by simp [hk'])) hnd.of_cons hS1 hN1 hT1
        have hknotin : k ∉ ks := (List.nodup_cons.mp hnd).1
        constructor
        · intro V hV
          obtain ⟨hS, hN, hT, hP, hG⟩ := IH1 V hV
          refine ⟨hS, hN, hT, ?_, ?_⟩
          · intro k' hk'
            have hkk : k' ≠ k := by
              intro h
              exact hk' (by simp [h])
            rw [hP k' (fun h => hk' (by simp [h])), vLookup_cons,
              if_neg (fun h => hkk h.symm)]
          · intro k' hk'
            rcases List.mem_cons.mp hk' with rfl | hmem
            · intro x y hx hy hkxy hdp hpar
              have hd := kstep_dom a b frontier D k' hdom hnnf x0 hx0def
                x y hx hy hkxy hdp hpar
              rw [← hpdef] at hd
              refine ⟨p.1, ?_, hd.2⟩
              rw [hP k' hknotin, vLookup_cons, if_pos rfl]
            · exact hG k' hmem
        · intro V hV
          exact IH2 V hV

theorem domV_of_goodK (a b : List α) (D : Nat) (V : List (Int × Int))
    (h : ∀ k ∈ kList D, GoodK a b D V k) : DomV a b D V := by
  intro x y hx hy hdp hpar
  have hk : ((x : Int) - y) ∈ kList D := by
    rw [kList_mem_iff]
    have hd := dpDist_diag_le a b (x + y) x y le_rfl
    have hp := dpDist_parity a b (x + y) x y le_rfl
    refine ⟨by omega, by omega, by omega⟩
  exact h _ hk x y hx hy rfl hdp hpar

theorem frontSound_of_soundV (a b : List α) (D : Nat) (V : List (Int × Int))
    (hs : SoundV a b D V) (hn : NonnegV V) : FrontSound a b D V := by
  intro j v hv
  have hm := vLookup_mem hv
  exact ⟨hn _ hm, Or.inr (hs _ hm)⟩

/-- The outer loop invariant: with a sound and dominating frontier for the
previous round and enough remaining fuel, the search succeeds and the
returned trace has exactly `editDist a b + 1` rounds. -/
theorem myersAux_spec (a b : List α) : ∀ (fuel : Nat) (frontier : List (Int × Int))
    (trace : List (List (Int × Int))),
    (trace.length = 0 → frontier = [(1, 0)]) →
    (1 ≤ trace.length → FrontSound a b (trace.length - 1) frontier) →
    (1 ≤ trace.length → DomV a b (trace.length - 1) frontier) →
    NonnegV frontier →
    trace.length ≤ editDist a b →
    editDist a b < trace.length + fuel →
    ∃ tr, myersAux a b fuel frontier trace = some tr ∧
      tr.length = editDist a b + 1 := by
  intro fuel
  induction fuel with
  | zero =>
    intro frontier trace h0 h1 h2 h3 h4 h5
    omega
  | succ f ih =>
    intro frontier trace h0 h1 h2 h3 h4 h5
    obtain ⟨hinl, hinr⟩ := roundGo_spec a b frontier trace.length h0 h1 h2 h3
      (kList trace.length) []
      (fun k hk => (kList_mem_iff _ k).mp hk)
      (kList_nodup _)
      (fun p hp => absurd hp (by simp))
      (fun p hp => absurd hp (by simp))
      (fun p hp => absurd hp (by simp))
    simp only [myersAux]
    cases hr : roundGo a b frontier trace.length (kList trace.length) [] with
    | inr V =>
      refine ⟨trace ++ [V], rfl, ?_⟩
      have hE := hinr V hr
      simp only [List.length_append, List.length_cons, List.length_nil]
      omega
    | inl V =>
      obtain ⟨hS, hN, hT, hP, hG⟩ := hinl V hr
      have hdomV : DomV a b trace.length V := domV_of_goodK a b _ V hG
      have hlt : trace.length < editDist a b := by
        rcases lt_or_eq_of_le h4 with h | h
        · exact h
        · exfalso
          have hpar : (a.length + b.length + trace.length) % 2 = 0 := by
            have hp := dpDist_parity a b (a.length + b.length) a.length b.length
              le_rfl
            unfold editDist at h
            omega
          obtain ⟨v, hv, hvge⟩ := hdomV a.length b.length le_rfl le_rfl
            (by unfold editDist at h; omega) hpar
          have hmem := vLookup_mem hv
          exact hT _ hmem ⟨hvge, by omega⟩
      have hrec := ih V (trace ++ [V])
        (by intro h; simp at h)
        (by
          intro hl
          have he : (trace ++ [V]).length - 1 = trace.length := by simp
          rw [he]
          exact frontSound_of_soundV a b trace.length V hS hN)
        (by
          intro hl
          have he : (trace ++ [V]).length - 1 = trace.length := by simp
          rw [he]
          exact hdomV)
        hN
        (by simp; omega)
        (by simp; omega)
      exact hrec

/-- C5: for every pair of line lists, the exact aligner `get_diff`
succeeds and the number of deletion plus insertion tokens in its output
equals the reference insert/delete edit distance `editDist` (the minimum
number of line insertions and deletions transforming `old` into `new`). -/
theorem C5_minimal_edit_tokens (a b : List α) :
    ∃ d, get_diff a b = some d ∧ editTokCount d = editDist a b := by
  have hE : editDist a b ≤ a.length + b.length := by
    have h := dpDist_le_sum a b (a.length + b.length) a.length b.length le_rfl
    unfold editDist
    omega
  obtain ⟨tr, htr, hlen⟩ := myersAux_spec a b (a.length + b.length + 1) [(1, 0)] []
    (fun _ => rfl)
    (fun h => absurd h (by simp))
    (fun h => absurd h (by simp))
    (by
      intro p hp
      simp only [List.mem_singleton] at hp
      subst hp
      exact le_refl 0)
    (by simp)
    (by simp; omega)
  refine ⟨reconstruct_from_trace a b tr, ?_, ?_⟩
  · unfold get_diff myersTrace
    rw [htr]
    rfl
  · rw [editTokCount_reconstruct, hlen]
    omega

end LHDiff
